import Mathlib

/-!
# Sync core of the node: wire codec, orphan triage, cascade, transaction filter

A shallow embedding of `netsync/sync.go` (wire framing of the four message kinds,
`processData` and its handlers) and of `snapshot/chain_correction_export.go`
(`ExcludeTxs`), followed by the properties established about them.

Byte strings are lists of naturals below 256.  Block hashes are naturals (a 32-byte
digest read as a big-endian number, so the numeric order is the byte-wise order).
-/

namespace Netsync

/-! ## Wire codec -/

/-- Byte strings (`common.Bytes`): every element is a byte value, below 256. -/
abbrev Bytes := List Nat

/-- A Go byte slice.  `array` is the backing array from the first element of the slice up to
its capacity, `len` is the length of the slice; the bytes of the slice are the first `len`
elements of `array`. -/
structure GoSlice where
  array : Bytes
  len : Nat
  deriving DecidableEq, Repr

/-- Capacity of a slice. -/
def GoSlice.cap (s : GoSlice) : Nat := s.array.length

/-- The bytes a slice holds. -/
def GoSlice.toBytes (s : GoSlice) : Bytes := s.array.take s.len

/-- The slice holding the bytes `b`, with `spare` further bytes of capacity behind them. -/
def GoSlice.ofBytes (b spare : Bytes) : GoSlice := { array := b ++ spare, len := b.length }

/-- The Go expression `s[:hi]`: it is in range when `hi` is at most the capacity, and
`none` stands for the run-time failure "slice bounds out of range". -/
def GoSlice.sliceTo (s : GoSlice) (hi : Nat) : Option Bytes :=
  if hi ≤ s.cap then some (s.array.take hi) else none

/-- The Go expression `s[lo:]`: the upper bound is the length, so it is in range when `lo`
is at most the length, and `none` stands for the run-time failure. -/
def GoSlice.sliceFrom (s : GoSlice) (lo : Nat) : Option Bytes :=
  if lo ≤ s.len then some ((s.array.take s.len).drop lo) else none

/-- Errors of the structured encoding. -/
inductive RlpError where
  | eof
  | canonInt
  | canonSize
  | valueTooLarge
  | uintOverflow
  | expectedString
  | expectedList
  | moreThanOneValue
  deriving DecidableEq, Repr

/-- Helper of `putint`: at most `n` bytes of the big-endian form of `i`. -/
def putintAux : Nat → Nat → Bytes
  | 0, _ => []
  | n + 1, i => if i < 256 then [i] else putintAux n (i / 256) ++ [i % 256]

/-- Modelled from the spec: the `rlp` package is not among the sources and the spec only
calls it "the structured encoding"; this is its `putint`, the big-endian bytes of a 64-bit
unsigned integer without leading zero bytes (one byte for zero). -/
def putint (i : Nat) : Bytes := putintAux 8 i

/-- Modelled from the spec: the `rlp` package is not among the sources; this is what
`rlp.Encode` writes for an unsigned integer (the kind of `MessageIDEnum`): zero is the empty
string `0x80`, a value below 128 is its own single byte, a larger value is a string header
followed by its big-endian bytes. -/
def rlpEncodeUint (i : Nat) : Bytes :=
  if i = 0 then [0x80]
  else if i < 128 then [i]
  else (0x80 + (putint i).length) :: putint i

/-- Value of a big-endian byte string. -/
def beValue (b : Bytes) : Nat := b.foldl (fun acc x => acc * 256 + x) 0

/-- Reads a payload size written on `n` bytes; a leading zero byte or a size below 56 is
not canonical. -/
def rlpReadSize (n : Nat) (rest : Bytes) : Except RlpError (Nat × Bytes) :=
  if rest.length < n then .error .eof
  else if (rest.take n).head? = some 0 then .error .canonSize
  else if beValue (rest.take n) < 56 then .error .canonSize
  else .ok (beValue (rest.take n), rest.drop n)

/-- Splits `size` payload bytes off the input. -/
def rlpSplit (size : Nat) (rest : Bytes) : Except RlpError (Bytes × Bytes) :=
  if rest.length < size then .error .valueTooLarge else .ok (rest.take size, rest.drop size)

/-- Modelled from the spec: the `rlp` package is not among the sources; reads the header of
one value in the RLP wire format and returns whether the value is a list, its payload, and the
input left over.  A single byte below `0x80` is a string that is its own payload; a string of
one byte below 128 written with a header is not canonical. -/
def rlpReadValue : Bytes → Except RlpError (Bool × Bytes × Bytes)
  | [] => .error .eof
  | b :: rest =>
    if b < 0x80 then .ok (false, [b], rest)
    else if b < 0xB8 then
      match rlpSplit (b - 0x80) rest with
      | .error e => .error e
      | .ok (payload, rest) =>
        match payload with
        | [x] => if x < 128 then .error .canonSize else .ok (false, payload, rest)
        | _ => .ok (false, payload, rest)
    else if b < 0xC0 then
      match rlpReadSize (b - 0xB7) rest with
      | .error e => .error e
      | .ok (size, rest) =>
        match rlpSplit size rest with
        | .error e => .error e
        | .ok (payload, rest) => .ok (false, payload, rest)
    else if b < 0xF8 then
      match rlpSplit (b - 0xC0) rest with
      | .error e => .error e
      | .ok (payload, rest) => .ok (true, payload, rest)
    else
      match rlpReadSize (b - 0xF7) rest with
      | .error e => .error e
      | .ok (size, rest) =>
        match rlpSplit size rest with
        | .error e => .error e
        | .ok (payload, rest) => .ok (true, payload, rest)

/-- Modelled from the spec: the `rlp` package is not among the sources; this is
`rlp.DecodeBytes` into a `uint8`: the input is one value, a string of at most one byte
without a leading zero byte, with nothing left over.  So a single byte `0x01..0x7f` is its
own value, the byte `0x00` is a non-canonical integer, `0x80` (the empty string) is zero,
and `0x81 x` is `x` when `x` is at least 128. -/
def rlpDecodeUint8 (raw : Bytes) : Except RlpError Nat :=
  match rlpReadValue raw with
  | .error e => .error e
  | .ok (true, _, _) => .error .expectedString
  | .ok (false, payload, rest) =>
    if 1 < payload.length then .error .uintOverflow
    else if payload.head? = some 0 then .error .canonInt
    else if rest ≠ [] then .error .moreThanOneValue
    else .ok (beValue payload)

/-- Modelled from the spec: `dispatcher.InventoryRequest` is not among the sources; the spec
gives each content kind "a channel identifier and a list of hashes or a list of encoded
entities". -/
structure InventoryRequest where
  ChannelID : Nat
  Entries : List Bytes
  deriving DecidableEq, Repr

/-- Modelled from the spec: `dispatcher.InventoryResponse` is not among the sources; a
channel identifier and a list of hashes. -/
structure InventoryResponse where
  ChannelID : Nat
  Entries : List Bytes
  deriving DecidableEq, Repr

/-- Modelled from the spec: `dispatcher.DataRequest` is not among the sources; a channel
identifier and a list of hashes. -/
structure DataRequest where
  ChannelID : Nat
  Entries : List Bytes
  deriving DecidableEq, Repr

/-- Modelled from the spec: `dispatcher.DataResponse` is not among the sources; a channel
identifier and a list of encoded entities. -/
structure DataResponse where
  ChannelID : Nat
  Entries : List Bytes
  deriving DecidableEq, Repr

/-- The values `encodeMessage` can be handed (its argument is an `interface{}`): the four
content kinds, or a value of any other type. -/
inductive Message where
  | inventoryRequest (d : InventoryRequest)
  | inventoryResponse (d : InventoryResponse)
  | dataRequest (d : DataRequest)
  | dataResponse (d : DataResponse)
  | other (v : Nat)
  deriving DecidableEq, Repr

/-- The tag of `InventoryRequest` (`iota` starts at zero). -/
def MessageIDInvRequest : Nat := 0

/-- The tag of `InventoryResponse`. -/
def MessageIDInvResponse : Nat := 1

/-- The tag of `DataRequest`. -/
def MessageIDDataRequest : Nat := 2

/-- The tag of `DataResponse`. -/
def MessageIDDataResponse : Nat := 3

/-- The structured encoding of one payload type: what `rlp.Encode` appends for a value and
what `rlp.DecodeBytes` reads back.  The `rlp` package and the `dispatcher` types are not among
the sources, so the payload encoding is a parameter of the codec. -/
structure RlpCodec (α : Type) where
  encode : α → Except RlpError Bytes
  decode : Bytes → Except RlpError α

/-- The structured encodings of the four payload types. -/
structure PayloadCodecs where
  invRequest : RlpCodec InventoryRequest
  invResponse : RlpCodec InventoryResponse
  dataRequest : RlpCodec DataRequest
  dataResponse : RlpCodec DataResponse

/-- Errors of `encodeMessage` and `decodeMessage`. -/
inductive CodecError where
  | unsupportedMessageType
  | unknownMessageID (msgID : Nat)
  | rlp (e : RlpError)
  deriving DecidableEq, Repr

/-- Result of a function that returns a value and an error and that may fail at run time
(`failure`: a slice expression out of range is a run-time panic). -/
inductive Outcome (α : Type) where
  | ok (v : α)
  | error (e : CodecError)
  | failure
  deriving DecidableEq, Repr

/-- The payload part of `encodeMessage`: `rlp.Encode(&buf, message)`.  The last case is never
reached from `encodeMessage`, which returns before for a value of another type. -/
def encodePayload (rlp : PayloadCodecs) : Message → Except RlpError Bytes
  | .inventoryRequest d => rlp.invRequest.encode d
  | .inventoryResponse d => rlp.invResponse.encode d
  | .dataRequest d => rlp.dataRequest.encode d
  | .dataResponse d => rlp.dataResponse.encode d
  | .other _ => .error .expectedList

/-- The function `encodeMessage`: the type switch chooses the tag, `rlp.Encode` writes the tag
and then the message into one buffer. -/
def encodeMessage (rlp : PayloadCodecs) (message : Message) : Except CodecError Bytes :=
  let msgID : Option Nat :=
    match message with
    | .inventoryRequest _ => some MessageIDInvRequest
    | .inventoryResponse _ => some MessageIDInvResponse
    | .dataRequest _ => some MessageIDDataRequest
    | .dataResponse _ => some MessageIDDataResponse
    | .other _ => none
  match msgID with
  | none => .error .unsupportedMessageType
  | some msgID =>
    let buf := rlpEncodeUint msgID
    match encodePayload rlp message with
    | .error e => .error (.rlp e)
    | .ok payload => .ok (buf ++ payload)

/-- Decoding of the payload `raw[1:]` with the codec of one kind; the slice expression is
evaluated first and fails when the slice is empty. -/
def decodeBody {α : Type} (codec : RlpCodec α) (wrap : α → Message) (raw : GoSlice) :
    Outcome Message :=
  match raw.sliceFrom 1 with
  | none => .failure
  | some body =>
    match codec.decode body with
    | .ok data => .ok (wrap data)
    | .error e => .error (.rlp e)

/-- The function `decodeMessage`: the tag is decoded from `raw[:1]`, the payload from
`raw[1:]` by the kind the tag names.  On an error the Go function also returns the partly
filled payload, which is not modelled. -/
def decodeMessage (rlp : PayloadCodecs) (raw : GoSlice) : Outcome Message :=
  match raw.sliceTo 1 with
  | none => .failure
  | some head =>
    match rlpDecodeUint8 head with
    | .error e => .error (.rlp e)
    | .ok msgID =>
      if msgID = MessageIDInvRequest then decodeBody rlp.invRequest .inventoryRequest raw
      else if msgID = MessageIDInvResponse then decodeBody rlp.invResponse .inventoryResponse raw
      else if msgID = MessageIDDataRequest then decodeBody rlp.dataRequest .dataRequest raw
      else if msgID = MessageIDDataResponse then decodeBody rlp.dataResponse .dataResponse raw
      else .error (.unknownMessageID msgID)

/-- The network message `p2ptypes.Message`. -/
structure P2PMessage where
  PeerID : String
  ChannelID : Nat
  Content : Message
  deriving DecidableEq, Repr

/-- The method `ParseMessage`: it decodes the raw bytes and touches no field of the sync
manager. -/
def ParseMessage (rlp : PayloadCodecs) (peerID : String) (channelID : Nat)
    (rawMessageBytes : GoSlice) : Outcome P2PMessage :=
  match decodeMessage rlp rawMessageBytes with
  | .ok data => .ok { PeerID := peerID, ChannelID := channelID, Content := data }
  | .error e => .error e
  | .failure => .failure

/-! ## A concrete structured encoding

The encoding below follows the RLP wire format for byte strings and lists.  It instantiates
the payload parameter of the codec on concrete messages. -/

/-- A value of the structured encoding: a byte string or a list of values. -/
inductive RlpItem where
  | str (b : Bytes)
  | list (items : List RlpItem)
  deriving Repr

/-- Header of a string (`offset = 0x80`) or of a list (`offset = 0xC0`) whose payload has
`size` bytes: one byte below 56 bytes, else the length of the size followed by the size. -/
def rlpHeader (offset size : Nat) : Bytes :=
  if size < 56 then [offset + size] else (offset + 55 + (putint size).length) :: putint size

mutual
/-- Modelled from the spec: the `rlp` package is not among the sources; the encoding of a
value in the RLP wire format (a single byte below 128 is itself, any other string and any
list is a header followed by the payload). -/
def RlpItem.encode : RlpItem → Bytes
  | .str b =>
    match b with
    | [x] => if x < 128 then [x] else rlpHeader 0x80 1 ++ [x]
    | _ => rlpHeader 0x80 b.length ++ b
  | .list items => rlpHeader 0xC0 (RlpItem.encodeAll items).length ++ RlpItem.encodeAll items
/-- Concatenated encodings of the elements of a list. -/
def RlpItem.encodeAll : List RlpItem → Bytes
  | [] => []
  | i :: rest => i.encode ++ RlpItem.encodeAll rest
end

mutual
/-- Modelled from the spec: the `rlp` package is not among the sources; reads one value in
the RLP wire format and returns it with the input left over.  The first argument bounds the
nesting depth and the number of values. -/
def rlpDecodeItem : Nat → Bytes → Except RlpError (RlpItem × Bytes)
  | 0, _ => .error .valueTooLarge
  | fuel + 1, raw =>
    match rlpReadValue raw with
    | .error e => .error e
    | .ok (false, payload, rest) => .ok (.str payload, rest)
    | .ok (true, payload, rest) =>
      match rlpDecodeAll fuel payload with
      | .error e => .error e
      | .ok items => .ok (.list items, rest)
/-- Reads values until the input is used up. -/
def rlpDecodeAll : Nat → Bytes → Except RlpError (List RlpItem)
  | 0, _ => .error .valueTooLarge
  | fuel + 1, raw =>
    if raw = [] then .ok []
    else
      match rlpDecodeItem fuel raw with
      | .error e => .error e
      | .ok (item, rest) =>
        match rlpDecodeAll fuel rest with
        | .error e => .error e
        | .ok items => .ok (item :: items)
end

/-- The byte string of an unsigned integer field: empty for zero, else its big-endian
bytes. -/
def uintField (i : Nat) : Bytes := if i = 0 then [] else putint i

/-- A payload as a value of the encoding: the list of its two fields. -/
def fieldsItem (channelID : Nat) (entries : List Bytes) : RlpItem :=
  .list [.str (uintField channelID), .list (entries.map RlpItem.str)]

/-- The byte strings of a list of values, when all of them are strings. -/
def itemStrings : List RlpItem → Except RlpError (List Bytes)
  | [] => .ok []
  | .str b :: rest =>
    match itemStrings rest with
    | .ok bs => .ok (b :: bs)
    | .error e => .error e
  | .list _ :: _ => .error .expectedString

/-- Reads the two fields of a payload back from the bytes of one value.  The depth bound
given to `rlpDecodeItem` is more than the nesting and the number of values the input can
hold. -/
def decodeFields (raw : Bytes) : Except RlpError (Nat × List Bytes) :=
  match rlpDecodeItem (2 * raw.length + 2) raw with
  | .error e => .error e
  | .ok (_, _ :: _) => .error .moreThanOneValue
  | .ok (.list [.str c, .list es], []) =>
    if c.head? = some 0 then .error .canonInt
    else
      match itemStrings es with
      | .ok entries => .ok (beValue c, entries)
      | .error e => .error e
  | .ok (_, []) => .error .expectedList

/-- The concrete encoding of the four payload types. -/
def rlpCodecs : PayloadCodecs where
  invRequest :=
    { encode := fun d => .ok (fieldsItem d.ChannelID d.Entries).encode
      decode := fun raw => (decodeFields raw).map (fun p => InventoryRequest.mk p.1 p.2) }
  invResponse :=
    { encode := fun d => .ok (fieldsItem d.ChannelID d.Entries).encode
      decode := fun raw => (decodeFields raw).map (fun p => InventoryResponse.mk p.1 p.2) }
  dataRequest :=
    { encode := fun d => .ok (fieldsItem d.ChannelID d.Entries).encode
      decode := fun raw => (decodeFields raw).map (fun p => DataRequest.mk p.1 p.2) }
  dataResponse :=
    { encode := fun d => .ok (fieldsItem d.ChannelID d.Entries).encode
      decode := fun raw => (decodeFields raw).map (fun p => DataResponse.mk p.1 p.2) }

/-! ## Sync manager -/

/-- Block hashes (`common.Bytes` digests), read as numbers. -/
abbrev HashValue := Nat

/-- The fields of `core.Block` the sync manager reads. -/
structure Block where
  Hash : HashValue
  ParentHash : HashValue
  Height : Nat
  deriving DecidableEq, Repr

/-- The type `core.CommitCertificate`: the hash of the certified block and the votes, which
the sync manager never inspects. -/
structure CommitCertificate where
  BlockHash : HashValue
  Votes : Nat
  deriving DecidableEq, Repr

/-- The type `core.Vote`: `Block` is a pointer and may be nil. -/
structure Vote where
  ID : Nat
  Block : Option Block
  deriving DecidableEq, Repr

/-- The type `core.Proposal`: `CommitCertificate` is a pointer and may be nil. -/
structure Proposal where
  CommitCertificate : Option CommitCertificate
  Block : Block
  deriving DecidableEq, Repr

/-- The data `processData` dispatches on. -/
inductive Entity where
  | proposal (p : Proposal)
  | block (b : Block)
  | cc (c : CommitCertificate)
  | vote (v : Vote)
  deriving DecidableEq, Repr

/-- The collaborators outside the sync core, over a state `W` they own together: the chain
store answers `FindBlock`, and the consensus engine takes a message with `AddMessage`, which
may change what the chain holds. -/
structure Env (W : Type) where
  FindBlock : W → HashValue → Option Block
  AddMessage : W → Entity → W

/-- Modelled from the spec: `Chain.IsOrphan` is not among the sources; "the chain considers
the block an orphan (its parent is absent)". -/
def IsOrphan {W : Type} (env : Env W) (w : W) (block : Block) : Bool :=
  (env.FindBlock w block.ParentHash).isNone

/-- Modelled from the spec: `OrphanBlockPool.Add` is not among the sources; "insert keyed by
`block.Hash` and index by `block.ParentHash`. Idempotent", "re-insertion with the same hash
is a no-op". -/
def OrphanBlockPool.Add (pool : List Block) (block : Block) : List Block :=
  if pool.any (fun b => b.Hash == block.Hash) then pool else pool ++ [block]

/-- The block of lowest hash in a list. -/
def lowestHash : List Block → Option Block
  | [] => none
  | b :: rest =>
    match lowestHash rest with
    | none => some b
    | some m => if b.Hash ≤ m.Hash then some b else some m

/-- Modelled from the spec: `OrphanBlockPool.TryGetNextBlock` is not among the sources;
"returns and removes any block whose `ParentHash == parentHash`. If multiple candidates exist
(forks), return one deterministically (lowest hash byte-wise)".  The result is the block, if
any, and the pool left. -/
def OrphanBlockPool.TryGetNextBlock (pool : List Block) (parentHash : HashValue) :
    Option Block × List Block :=
  match lowestHash (pool.filter (fun b => b.ParentHash == parentHash)) with
  | none => (none, pool)
  | some next => (some next, pool.filter (fun b => b.Hash != next.Hash))

/-- Modelled from the spec: `OrphanCCPool.Add` is not among the sources; "insert keyed by
`cc.BlockHash`. Keep-first on collision". -/
def OrphanCCPool.Add (pool : List CommitCertificate) (cc : CommitCertificate) :
    List CommitCertificate :=
  if pool.any (fun c => c.BlockHash == cc.BlockHash) then pool else pool ++ [cc]

/-- Modelled from the spec: `OrphanCCPool.TryGetCCByBlockHash` is not among the sources;
"returns and removes the CC for that target, if present".  The result is the certificate, if
any, and the pool left. -/
def OrphanCCPool.TryGetCCByBlockHash (pool : List CommitCertificate) (blockHash : HashValue) :
    Option CommitCertificate × List CommitCertificate :=
  match pool.find? (fun c => c.BlockHash == blockHash) with
  | none => (none, pool)
  | some cc => (some cc, pool.filter (fun c => c.BlockHash != blockHash))

/-- The state of a sync manager: the state of its collaborators, the two orphan pools, the
pending hashes of its request manager, and three records of what happened: the arguments of
the calls of `enqueueBlocks` and of `consensus.AddMessage`, in order, and the number of
calls of `processData`. -/
structure SyncManager (W : Type) where
  world : W
  orphanBlockPool : List Block
  orphanCCPool : List CommitCertificate
  pendingHashes : List HashValue
  enqueueCalls : List HashValue
  delivered : List Entity
  processDataCalls : Nat
  deriving DecidableEq, Repr

/-- Modelled from the spec: `RequestManager.enqueueBlocks` is not among the sources; "record
that `hash` is needed. No-op if already in `pendingHashes` or if the chain already has
it". -/
def enqueueBlocks {W : Type} (env : Env W) (sm : SyncManager W) (hash : HashValue) :
    SyncManager W :=
  let sm := { sm with enqueueCalls := sm.enqueueCalls ++ [hash] }
  if hash ∈ sm.pendingHashes ∨ (env.FindBlock sm.world hash).isSome then sm
  else { sm with pendingHashes := sm.pendingHashes ++ [hash] }

/-- The call `sm.consensus.AddMessage(e)`: the engine takes the message, and the call is
recorded. -/
def consensusAddMessage {W : Type} (env : Env W) (sm : SyncManager W) (e : Entity) :
    SyncManager W :=
  { sm with world := env.AddMessage sm.world e, delivered := sm.delivered ++ [e] }

/-- The method `handleCC`. -/
def handleCC {W : Type} (env : Env W) (sm : SyncManager W) (cc : CommitCertificate) :
    SyncManager W :=
  match env.FindBlock sm.world cc.BlockHash with
  | none =>
    let sm := { sm with orphanCCPool := OrphanCCPool.Add sm.orphanCCPool cc }
    enqueueBlocks env sm cc.BlockHash
  | some _ => consensusAddMessage env sm (.cc cc)

/-- The method `handleVote`. -/
def handleVote {W : Type} (env : Env W) (sm : SyncManager W) (vote : Vote) : SyncManager W :=
  match vote.Block with
  | some vb =>
    match env.FindBlock sm.world vb.Hash with
    | none => enqueueBlocks env sm vb.Hash
    | some _ => consensusAddMessage env sm (.vote vote)
  | none => consensusAddMessage env sm (.vote vote)

/-- The method `handleBlock`.  Its calls of `sm.processData` go through the argument
`processData`, and the result is `none` when one of them does not return. -/
def handleBlock {W : Type} (env : Env W)
    (processData : SyncManager W → Entity → Option (SyncManager W))
    (sm : SyncManager W) (block : Block) : Option (SyncManager W) :=
  if IsOrphan env sm.world block then
    let sm := { sm with orphanBlockPool := OrphanBlockPool.Add sm.orphanBlockPool block }
    some (enqueueBlocks env sm block.Hash)
  else
    let sm := consensusAddMessage env sm (.block block)
    let found := OrphanCCPool.TryGetCCByBlockHash sm.orphanCCPool block.Hash
    let sm := { sm with orphanCCPool := found.2 }
    let afterCC :=
      match found.1 with
      | some cc => processData sm (.cc cc)
      | none => some sm
    match afterCC with
    | none => none
    | some sm =>
      let next := OrphanBlockPool.TryGetNextBlock sm.orphanBlockPool block.Hash
      let sm := { sm with orphanBlockPool := next.2 }
      match next.1 with
      | some nextBlock => processData sm (.block nextBlock)
      | none => some sm

/-- The method `handleProposal`: the certificate, if present, then the block. -/
def handleProposal {W : Type} (env : Env W)
    (processData : SyncManager W → Entity → Option (SyncManager W))
    (sm : SyncManager W) (p : Proposal) : Option (SyncManager W) :=
  let sm :=
    match p.CommitCertificate with
    | some cc => handleCC env sm cc
    | none => sm
  handleBlock env processData sm p.Block

/-- The method `processData`, with a bound on the depth of the calls of `processData` nested
in one another: `none` when the bound is reached.  Every call is counted.  The default case
of the type switch (a logged panic on data of another type) has no counterpart, since
`Entity` holds the four types only. -/
def processData {W : Type} (env : Env W) :
    Nat → SyncManager W → Entity → Option (SyncManager W)
  | 0, _, _ => none
  | fuel + 1, sm, data =>
    let sm := { sm with processDataCalls := sm.processDataCalls + 1 }
    match data with
    | .proposal d => handleProposal env (processData env fuel) sm d
    | .block d => handleBlock env (processData env fuel) sm d
    | .cc d => some (handleCC env sm d)
    | .vote d => some (handleVote env sm d)

/-- One entity fed to `processData` from outside, with a depth bound that the orphan block
pool at that moment cannot reach. -/
def feedOne {W : Type} (env : Env W) (sm : SyncManager W) (data : Entity) :
    Option (SyncManager W) :=
  processData env (sm.orphanBlockPool.length + 2) sm data

/-- A sequence of entities fed to `processData` one after the other. -/
def feedAll {W : Type} (env : Env W) : SyncManager W → List Entity → Option (SyncManager W)
  | sm, [] => some sm
  | sm, data :: rest =>
    match feedOne env sm data with
    | none => none
    | some sm => feedAll env sm rest

/-- A chain that holds the blocks it was given: `FindBlock` looks a hash up among them, and
`AddMessage` of a block stores the block (certificates and votes leave the chain as it is). -/
def storeEnv : Env (List Block) where
  FindBlock := fun w h => w.find? (fun b => b.Hash == h)
  AddMessage := fun w e =>
    match e with
    | .block b => w ++ [b]
    | _ => w

/-- A sync manager just created over the state `w` of its collaborators. -/
def SyncManager.new {W : Type} (w : W) : SyncManager W :=
  { world := w, orphanBlockPool := [], orphanCCPool := [], pendingHashes := [],
    enqueueCalls := [], delivered := [], processDataCalls := 0 }

/-- The state of `handleBlock` for a block that is no orphan, once the block is handed to
the consensus engine and the lookup in the orphan CC pool is done: a certificate found there
went through `processData`, which counted the call and ran `handleCC`. -/
def afterCertificate {W : Type} (env : Env W) (sm : SyncManager W) (block : Block) :
    SyncManager W :=
  let sm := consensusAddMessage env sm (.block block)
  let found := OrphanCCPool.TryGetCCByBlockHash sm.orphanCCPool block.Hash
  let sm := { sm with orphanCCPool := found.2 }
  match found.1 with
  | some cc => handleCC env { sm with processDataCalls := sm.processDataCalls + 1 } cc
  | none => sm

/-- Whether the payload codec round-trips the payload of a message: the payload encodes
without error and the bytes decode to the same payload.  It is `false` for a value that is
none of the four content kinds. -/
def payloadRoundTrips (rlp : PayloadCodecs) : Message → Bool
  | .inventoryRequest d =>
    match rlp.invRequest.encode d with
    | .ok p => (match rlp.invRequest.decode p with | .ok r => r == d | .error _ => false)
    | .error _ => false
  | .inventoryResponse d =>
    match rlp.invResponse.encode d with
    | .ok p => (match rlp.invResponse.decode p with | .ok r => r == d | .error _ => false)
    | .error _ => false
  | .dataRequest d =>
    match rlp.dataRequest.encode d with
    | .ok p => (match rlp.dataRequest.decode p with | .ok r => r == d | .error _ => false)
    | .error _ => false
  | .dataResponse d =>
    match rlp.dataResponse.encode d with
    | .ok p => (match rlp.dataResponse.decode p with | .ok r => r == d | .error _ => false)
    | .error _ => false
  | .other _ => false

/-- The first byte `encodeMessage` writes for each content kind: the structured encoding of
the tag. -/
def wireTag : Message → Nat
  | .inventoryRequest _ => 0x80
  | .inventoryResponse _ => 1
  | .dataRequest _ => 2
  | .dataResponse _ => 3
  | .other _ => 0

/-! ### Sample data -/

/-- A genesis block, of hash 10. -/
def blockG : Block := { Hash := 10, ParentHash := 0, Height := 0 }

/-- A child of the genesis block, of hash 11. -/
def blockB1 : Block := { Hash := 11, ParentHash := 10, Height := 1 }

/-- A child of `blockB1`, of hash 12. -/
def blockB2 : Block := { Hash := 12, ParentHash := 11, Height := 2 }

/-- A second child of `blockB1` (a fork), of hash 13. -/
def blockB2x : Block := { Hash := 13, ParentHash := 11, Height := 2 }

/-- A certificate for `blockB1`. -/
def certB1 : CommitCertificate := { BlockHash := 11, Votes := 7 }

/-- A sync manager just created over a chain that holds the genesis block only. -/
def genesisManager : SyncManager (List Block) := SyncManager.new [blockG]

/-- A sync manager over a chain that holds the genesis block only, after the two children
`blockB2` and `blockB2x` of the missing `blockB1` were fed and buffered. -/
def forkManager : SyncManager (List Block) :=
  { world := [blockG], orphanBlockPool := [blockB2, blockB2x], orphanCCPool := [],
    pendingHashes := [12, 13], enqueueCalls := [12, 13], delivered := [],
    processDataCalls := 2 }

end Netsync

/-! ## Chain correction export: the transaction filter -/

namespace Snapshot

open Netsync

/-- The transaction types `ExcludeTxs` tells apart by a type assertion, and every other
transaction type. -/
inductive Tx where
  | coinbase
  | depositStake
  | withdrawStake
  | otherTx (kind : Nat)
  deriving DecidableEq, Repr

/-- The two library functions `ExcludeTxs` calls, which are not among the sources:
`types.TxFromBytes` (`none` when it returns an error) and the hexadecimal form of
`crypto.Keccak256Hash`. -/
structure TxLib where
  TxFromBytes : Bytes → Option Tx
  Keccak256Hex : Bytes → String

/-- One round of the loop of `ExcludeTxs`: the result list after the transaction `tx`. -/
def excludeStep (lib : TxLib) (exclusionTxMap : String → Option Bool) (results : List Bytes)
    (tx : Bytes) : List Bytes :=
  match lib.TxFromBytes tx with
  | none => results
  | some t =>
    match t with
    | .coinbase => results
    | .depositStake => results
    | .withdrawStake => results
    | .otherTx _ =>
      match exclusionTxMap (lib.Keccak256Hex tx) with
      | none => results ++ [tx]
      | some _ => results

/-- The function `ExcludeTxs`.  The map `exclusionTxMap` is given by its lookup (`none`: the
key is absent), and `chain` is the chain argument, of any type. -/
def ExcludeTxs {Chain : Type} (lib : TxLib) (txs : List Bytes)
    (exclusionTxMap : String → Option Bool) (_chain : Chain) : List Bytes :=
  txs.foldl (excludeStep lib exclusionTxMap) []

/-- The transactions the filter keeps, in the words of the specification: those that decode
as a transaction, are no coinbase, deposit-stake or withdraw-stake transaction, and whose
hash is not a key of the exclusion map. -/
def keptTx (lib : TxLib) (exclusionTxMap : String → Option Bool) (tx : Bytes) : Bool :=
  match lib.TxFromBytes tx with
  | none => false
  | some t =>
    t != .coinbase && t != .depositStake && t != .withdrawStake
      && (exclusionTxMap (lib.Keccak256Hex tx)).isNone

end Snapshot

/-! ## Properties of the wire codec -/

namespace Netsync

/-- The four bytes the tags are written as decode to the four tags. -/
theorem rlpDecodeUint8_tags :
    rlpDecodeUint8 [0x80] = .ok 0 ∧ rlpDecodeUint8 [1] = .ok 1 ∧
    rlpDecodeUint8 [2] = .ok 2 ∧ rlpDecodeUint8 [3] = .ok 3 :=
  ⟨rfl, rfl, rfl, rfl⟩

/-- Decoding of an 8-bit integer once the value read is a string. -/
theorem rlpDecodeUint8_of_string (raw payload rest : Bytes)
    (h : rlpReadValue raw = .ok (false, payload, rest)) :
    rlpDecodeUint8 raw =
      if 1 < payload.length then .error .uintOverflow
      else if payload.head? = some 0 then .error .canonInt
      else if rest ≠ [] then .error .moreThanOneValue
      else .ok (beValue payload) := by
  unfold rlpDecodeUint8
  rw [h]

/-- The tag codec round-trips on every 8-bit value. -/
theorem rlpUint8_roundtrip (i : Nat) (h : i < 256) :
    rlpDecodeUint8 (rlpEncodeUint i) = .ok i := by
  unfold rlpEncodeUint
  split
  · rename_i h0
    subst h0
    rfl
  · rename_i h0
    split
    · rename_i h128
      have hr : rlpReadValue [i] = .ok (false, [i], []) := by
        rw [rlpReadValue, if_pos h128]
      rw [rlpDecodeUint8_of_string _ _ _ hr]
      simp [beValue, h0]
    · rename_i h128
      have hp : putint i = [i] := by simp [putint, putintAux, h]
      have hr : rlpReadValue [0x81, i] = .ok (false, [i], []) := by
        rw [rlpReadValue, if_neg (by omega), if_pos (by omega)]
        have hs : rlpSplit (0x81 - 0x80) [i] = .ok ([i], []) := rfl
        rw [hs]
        dsimp only
        rw [if_neg (by omega)]
      rw [hp]
      have hb : (0x80 + [i].length) :: [i] = [0x81, i] := rfl
      rw [hb, rlpDecodeUint8_of_string _ _ _ hr]
      have hi : i ≠ 0 := by omega
      simp [beValue, hi]

/-- The expression `raw[:1]` on a slice that holds at least one byte. -/
theorem sliceTo_ofBytes_cons (x : Nat) (b spare : Bytes) :
    (GoSlice.ofBytes (x :: b) spare).sliceTo 1 = some [x] := by
  simp [GoSlice.ofBytes, GoSlice.sliceTo, GoSlice.cap]

/-- The expression `raw[1:]` on a slice that holds at least one byte. -/
theorem sliceFrom_ofBytes_cons (x : Nat) (b spare : Bytes) :
    (GoSlice.ofBytes (x :: b) spare).sliceFrom 1 = some b := by
  simp [GoSlice.ofBytes, GoSlice.sliceFrom]

/-- What `encodeMessage` returns once the payload is encoded: the one-byte encoding of the tag
followed by the payload bytes. -/
theorem encodeMessage_of_payload (rlp : PayloadCodecs) (m : Message) (payload : Bytes)
    (h : encodePayload rlp m = .ok payload) :
    encodeMessage rlp m = .ok (wireTag m :: payload) := by
  cases m <;>
    simp_all [encodeMessage, encodePayload, rlpEncodeUint, wireTag, MessageIDInvRequest,
      MessageIDInvResponse, MessageIDDataRequest, MessageIDDataResponse]

/-- C1: every message of the four content kinds whose payload the payload codec round-trips
is encoded without error by `encodeMessage`, and `decodeMessage` returns the message from the
encoded bytes, whatever spare capacity the slice has: the tag is written on exactly one
byte. -/
theorem encode_decode_roundtrip (rlp : PayloadCodecs) (m : Message)
    (h : payloadRoundTrips rlp m = true) :
    ∃ tagByte payload, encodePayload rlp m = .ok payload ∧
      encodeMessage rlp m = .ok (tagByte :: payload) ∧
      ∀ spare, decodeMessage rlp (GoSlice.ofBytes (tagByte :: payload) spare) = .ok m := by
  cases m with
  | other v => simp [payloadRoundTrips] at h
  | inventoryRequest d =>
    simp only [payloadRoundTrips] at h
    split at h
    · rename_i p hp
      split at h
      · rename_i r hr
        have hrd : r = d := by simpa using h
        subst hrd
        have hp2 : encodePayload rlp (.inventoryRequest r) = .ok p := by simpa [encodePayload] using hp
        refine ⟨wireTag (.inventoryRequest r), p, hp2, encodeMessage_of_payload rlp _ p hp2, ?_⟩
        intro spare
        simp only [wireTag, decodeMessage, sliceTo_ofBytes_cons, rlpDecodeUint8_tags.1,
          decodeBody, sliceFrom_ofBytes_cons, hr, MessageIDInvRequest, if_true]
      · simp at h
    · simp at h
  | inventoryResponse d =>
    simp only [payloadRoundTrips] at h
    split at h
    · rename_i p hp
      split at h
      · rename_i r hr
        have hrd : r = d := by simpa using h
        subst hrd
        have hp2 : encodePayload rlp (.inventoryResponse r) = .ok p := by simpa [encodePayload] using hp
        refine ⟨wireTag (.inventoryResponse r), p, hp2, encodeMessage_of_payload rlp _ p hp2, ?_⟩
        intro spare
        simp [wireTag, decodeMessage, sliceTo_ofBytes_cons, rlpDecodeUint8_tags,
          decodeBody, sliceFrom_ofBytes_cons, hr, MessageIDInvRequest, MessageIDInvResponse]
      · simp at h
    · simp at h
  | dataRequest d =>
    simp only [payloadRoundTrips] at h
    split at h
    · rename_i p hp
      split at h
      · rename_i r hr
        have hrd : r = d := by simpa using h
        subst hrd
        have hp2 : encodePayload rlp (.dataRequest r) = .ok p := by simpa [encodePayload] using hp
        refine ⟨wireTag (.dataRequest r), p, hp2, encodeMessage_of_payload rlp _ p hp2, ?_⟩
        intro spare
        simp [wireTag, decodeMessage, sliceTo_ofBytes_cons, rlpDecodeUint8_tags,
          decodeBody, sliceFrom_ofBytes_cons, hr, MessageIDInvRequest, MessageIDInvResponse,
          MessageIDDataRequest]
      · simp at h
    · simp at h
  | dataResponse d =>
    simp only [payloadRoundTrips] at h
    split at h
    · rename_i p hp
      split at h
      · rename_i r hr
        have hrd : r = d := by simpa using h
        subst hrd
        have hp2 : encodePayload rlp (.dataResponse r) = .ok p := by simpa [encodePayload] using hp
        refine ⟨wireTag (.dataResponse r), p, hp2, encodeMessage_of_payload rlp _ p hp2, ?_⟩
        intro spare
        simp [wireTag, decodeMessage, sliceTo_ofBytes_cons, rlpDecodeUint8_tags,
          decodeBody, sliceFrom_ofBytes_cons, hr, MessageIDInvRequest, MessageIDInvResponse,
          MessageIDDataRequest, MessageIDDataResponse]
      · simp at h
    · simp at h

/-- Witness of C1: the data response `(3, [[1, 2, 3], [200]])` under the concrete
encoding. -/
theorem encode_decode_roundtrip_witness :
    payloadRoundTrips rlpCodecs (.dataResponse ⟨3, [[1, 2, 3], [200]]⟩) = true ∧
    ∃ tagByte payload,
      encodePayload rlpCodecs (.dataResponse ⟨3, [[1, 2, 3], [200]]⟩) = .ok payload ∧
      encodeMessage rlpCodecs (.dataResponse ⟨3, [[1, 2, 3], [200]]⟩)
        = .ok (tagByte :: payload) ∧
      ∀ spare, decodeMessage rlpCodecs (GoSlice.ofBytes (tagByte :: payload) spare)
        = .ok (.dataResponse ⟨3, [[1, 2, 3], [200]]⟩) :=
  ⟨by decide, encode_decode_roundtrip rlpCodecs _ (by decide)⟩

/-- C2, as stated, fails: the first byte written for an `InventoryRequest` is `0x80`, which
is the structured encoding of the integer zero, and not the tag value 0. -/
theorem encodeMessage_invRequest_first_byte :
    encodeMessage rlpCodecs (.inventoryRequest ⟨0, []⟩) = .ok [0x80, 0xC2, 0x80, 0xC0] ∧
    ([0x80, 0xC2, 0x80, 0xC0] : Bytes).head? ≠ some MessageIDInvRequest :=
  ⟨rfl, by decide⟩

/-- C2, amended: for every message of the four content kinds whose payload encodes to
`payload`, `encodeMessage` returns the one-byte structured encoding of the kind's tag
(`0x80` for InventoryRequest, 1 for InventoryResponse, 2 for DataRequest, 3 for
DataResponse) followed by `payload`, and that first byte decodes to the tag of the kind. -/
theorem encodeMessage_wire_framing (rlp : PayloadCodecs) (m : Message) (payload : Bytes)
    (h : encodePayload rlp m = .ok payload) :
    encodeMessage rlp m = .ok (wireTag m :: payload) ∧
    (match m with
      | .inventoryRequest _ =>
        wireTag m = 0x80 ∧ rlpDecodeUint8 [wireTag m] = .ok MessageIDInvRequest
      | .inventoryResponse _ =>
        wireTag m = 1 ∧ rlpDecodeUint8 [wireTag m] = .ok MessageIDInvResponse
      | .dataRequest _ =>
        wireTag m = 2 ∧ rlpDecodeUint8 [wireTag m] = .ok MessageIDDataRequest
      | .dataResponse _ =>
        wireTag m = 3 ∧ rlpDecodeUint8 [wireTag m] = .ok MessageIDDataResponse
      | .other _ => False) := by
  refine ⟨encodeMessage_of_payload rlp m payload h, ?_⟩
  cases m with
  | other v => simp [encodePayload] at h
  | inventoryRequest d => exact ⟨rfl, rlpDecodeUint8_tags.1⟩
  | inventoryResponse d => exact ⟨rfl, rlpDecodeUint8_tags.2.1⟩
  | dataRequest d => exact ⟨rfl, rlpDecodeUint8_tags.2.2.1⟩
  | dataResponse d => exact ⟨rfl, rlpDecodeUint8_tags.2.2.2⟩

/-- Witness of C2, amended: an inventory request under the concrete encoding. -/
theorem encodeMessage_wire_framing_witness :
    encodePayload rlpCodecs (.inventoryRequest ⟨0, []⟩) = .ok [0xC2, 0x80, 0xC0] ∧
    encodeMessage rlpCodecs (.inventoryRequest ⟨0, []⟩) = .ok [0x80, 0xC2, 0x80, 0xC0] :=
  ⟨rfl, (encodeMessage_wire_framing rlpCodecs (.inventoryRequest ⟨0, []⟩)
    [0xC2, 0x80, 0xC0] rfl).1⟩

/-- C3 on the code: for the zero-length buffer without capacity, `decodeMessage` evaluates
`raw[:1]` out of range and fails at run time, and so does `ParseMessage`; and whatever the
capacity, a zero-length buffer never decodes to a message. -/
theorem decodeMessage_empty_buffer (rlp : PayloadCodecs) (peerID : String) (channelID : Nat) :
    decodeMessage rlp { array := [], len := 0 } = .failure ∧
    ParseMessage rlp peerID channelID { array := [], len := 0 } = .failure ∧
    ∀ spare m, decodeMessage rlp (GoSlice.ofBytes [] spare) ≠ .ok m := by
  refine ⟨rfl, rfl, ?_⟩
  intro spare m
  have hfrom : (GoSlice.ofBytes [] spare).sliceFrom 1 = none := by
    simp [GoSlice.ofBytes, GoSlice.sliceFrom]
  simp only [decodeMessage, decodeBody, hfrom]
  split
  · simp
  · split
    · simp
    · split_ifs <;> simp

end Netsync


namespace Netsync

/-! ### The concrete encoding round-trips -/

/-- Value of a big-endian byte string with one more byte. -/
theorem beValue_append (l : Bytes) (x : Nat) : beValue (l ++ [x]) = beValue l * 256 + x := by
  simp [beValue, List.foldl_append]

/-- The bytes of a positive integer that fits `k` bytes: their value, no leading zero, at most
`k` of them. -/
theorem putintAux_spec : ∀ (k n : Nat), 0 < n → n < 256 ^ k →
    beValue (putintAux k n) = n ∧ putintAux k n ≠ [] ∧
      (putintAux k n).head? ≠ some 0 ∧ (putintAux k n).length ≤ k := by
  intro k
  induction k with
  | zero => intro n h0 h; simp at h; omega
  | succ k ih =>
    intro n h0 h
    unfold putintAux
    split
    · refine ⟨by simp [beValue], by simp, ?_, by simp⟩
      simp only [List.head?_cons, ne_eq, Option.some.injEq]
      omega
    · rename_i hge
      have hdiv0 : 0 < n / 256 := Nat.div_pos (by omega) (by norm_num)
      have hdiv : n / 256 < 256 ^ k := by
        apply Nat.div_lt_of_lt_mul
        rw [Nat.pow_succ] at h
        omega
      obtain ⟨hv, hne, hhead, hlen⟩ := ih (n / 256) hdiv0 hdiv
      refine ⟨?_, by simp, ?_, by simp; omega⟩
      · rw [beValue_append, hv]
        omega
      · rw [List.head?_append_of_ne_nil _ hne]
        exact hhead

/-- The bytes `putint` gives for a positive 64-bit integer. -/
theorem putint_spec (n : Nat) (h0 : 0 < n) (h : n < 2 ^ 64) :
    beValue (putint n) = n ∧ putint n ≠ [] ∧ (putint n).head? ≠ some 0 ∧
      (putint n).length ≤ 8 := by
  have := putintAux_spec 8 n h0 (by norm_num at h ⊢; omega)
  exact this

/-- Splitting a payload off the input that starts with it. -/
theorem rlpSplit_append (b rest : Bytes) : rlpSplit b.length (b ++ rest) = .ok (b, rest) := by
  simp [rlpSplit]

/-- Reading a size back from the bytes `putint` wrote. -/
theorem rlpReadSize_putint (n : Nat) (h56 : 56 ≤ n) (h : n < 2 ^ 64) (tail : Bytes) :
    rlpReadSize (putint n).length (putint n ++ tail) = .ok (n, tail) := by
  obtain ⟨hv, hne, hhead, _⟩ := putint_spec n (by omega) h
  unfold rlpReadSize
  simp only [List.length_append, List.take_left', List.drop_left']
  rw [if_neg (by omega), if_neg hhead, hv, if_neg (by omega)]

/-- The function `putint` writes at least one byte. -/
theorem putint_length_pos (n : Nat) (h0 : 0 < n) (h : n < 2 ^ 64) :
    1 ≤ (putint n).length := by
  have := (putint_spec n h0 h).2.1
  cases hp : putint n with
  | nil => exact absurd hp this
  | cons a t => simp

/-- Reading a string written with a header. -/
theorem rlpReadValue_header_str (b rest : Bytes) (hlen : b.length < 2 ^ 64)
    (hcanon : ∀ x, b = [x] → 128 ≤ x) :
    rlpReadValue (rlpHeader 0x80 b.length ++ b ++ rest) = .ok (false, b, rest) := by
  unfold rlpHeader
  split
  · rename_i hsmall
    simp only [List.singleton_append, List.cons_append, List.nil_append, rlpReadValue]
    rw [if_neg (by omega), if_pos (by omega)]
    have hsub : 128 + b.length - 128 = b.length := by omega
    rw [hsub, rlpSplit_append]
    dsimp only
    split
    · rename_i x
      have := hcanon x rfl
      rw [if_neg (by omega)]
    · rfl
  · rename_i hbig
    obtain ⟨_, _, _, hl8⟩ := putint_spec b.length (by omega) hlen
    have h1 := putint_length_pos b.length (by omega) hlen
    simp only [List.cons_append, List.append_assoc, rlpReadValue]
    rw [if_neg (by omega), if_neg (by omega), if_pos (by omega)]
    have hsub : 128 + 55 + (putint b.length).length - 183 = (putint b.length).length := by omega
    rw [hsub, rlpReadSize_putint b.length (by omega) hlen]
    dsimp only
    rw [rlpSplit_append]

/-- Reading an encoded string. -/
theorem rlpReadValue_str (b rest : Bytes) (hlen : b.length < 2 ^ 64) :
    rlpReadValue ((RlpItem.str b).encode ++ rest) = .ok (false, b, rest) := by
  unfold RlpItem.encode
  split
  · rename_i x
    split
    · rename_i hx
      simp only [List.singleton_append, rlpReadValue]
      rw [if_pos (by omega)]
    · rename_i hx
      exact rlpReadValue_header_str [x] rest hlen
        (fun y hy => by simp only [List.cons.injEq, and_true] at hy; omega)
  · rename_i hns
    exact rlpReadValue_header_str b rest hlen (fun x hx => absurd hx (hns x))

/-- Reading the header of an encoded list. -/
theorem rlpReadValue_list (payload rest : Bytes) (hlen : payload.length < 2 ^ 64) :
    rlpReadValue (rlpHeader 0xC0 payload.length ++ payload ++ rest)
      = .ok (true, payload, rest) := by
  unfold rlpHeader
  split
  · rename_i hsmall
    simp only [List.singleton_append, List.cons_append, List.nil_append, rlpReadValue]
    rw [if_neg (by omega), if_neg (by omega), if_neg (by omega), if_pos (by omega)]
    have hsub : 192 + payload.length - 192 = payload.length := by omega
    rw [hsub, rlpSplit_append]
  · rename_i hbig
    obtain ⟨_, _, _, hl8⟩ := putint_spec payload.length (by omega) hlen
    have h1 := putint_length_pos payload.length (by omega) hlen
    simp only [List.cons_append, List.append_assoc, rlpReadValue]
    rw [if_neg (by omega), if_neg (by omega), if_neg (by omega), if_neg (by omega)]
    have hsub : 192 + 55 + (putint payload.length).length - 247
        = (putint payload.length).length := by omega
    rw [hsub, rlpReadSize_putint payload.length (by omega) hlen]
    dsimp only
    rw [rlpSplit_append]

/-- Decoding an encoded string. -/
theorem rlpDecodeItem_str (fuel : Nat) (b rest : Bytes) (hlen : b.length < 2 ^ 64) :
    rlpDecodeItem (fuel + 1) ((RlpItem.str b).encode ++ rest) = .ok (.str b, rest) := by
  rw [rlpDecodeItem, rlpReadValue_str b rest hlen]

/-- Decoding an encoded list goes on with its payload. -/
theorem rlpDecodeItem_list (fuel : Nat) (payload rest : Bytes)
    (hlen : payload.length < 2 ^ 64) :
    rlpDecodeItem (fuel + 1) (rlpHeader 0xC0 payload.length ++ payload ++ rest) =
      match rlpDecodeAll fuel payload with
      | .error e => .error e
      | .ok items => .ok (.list items, rest) := by
  rw [rlpDecodeItem, rlpReadValue_list payload rest hlen]

/-- A header has at least one byte. -/
theorem rlpHeader_length_pos (offset size : Nat) : 1 ≤ (rlpHeader offset size).length := by
  unfold rlpHeader
  split <;> simp

/-- An encoded string is not empty and not shorter than the string. -/
theorem encode_str_length (b : Bytes) :
    1 ≤ (RlpItem.str b).encode.length ∧ b.length ≤ (RlpItem.str b).encode.length := by
  unfold RlpItem.encode
  split
  · split
    · simp
    · have := rlpHeader_length_pos 0x80 1
      simp only [List.length_append, List.length_singleton]
      omega
  · have := rlpHeader_length_pos 0x80 b.length
    simp only [List.length_append]
    omega

/-- Encoding of a list of strings, one string at a time. -/
theorem encodeAll_strs_cons (e : Bytes) (es : List Bytes) :
    RlpItem.encodeAll ((e :: es).map RlpItem.str)
      = (RlpItem.str e).encode ++ RlpItem.encodeAll (es.map RlpItem.str) := by
  simp only [List.map_cons, RlpItem.encodeAll]

/-- The encoding of a list of strings has at least one byte for each string and is not shorter
than any of them. -/
theorem encodeAll_strs_length (es : List Bytes) :
    es.length ≤ (RlpItem.encodeAll (es.map RlpItem.str)).length ∧
      ∀ e ∈ es, e.length ≤ (RlpItem.encodeAll (es.map RlpItem.str)).length := by
  induction es with
  | nil => simp [RlpItem.encodeAll]
  | cons e es ih =>
    rw [encodeAll_strs_cons]
    have := encode_str_length e
    simp only [List.length_append, List.length_cons, List.mem_cons, forall_eq_or_imp]
    refine ⟨by omega, by omega, ?_⟩
    intro x hx
    have := ih.2 x hx
    omega

/-- Decoding the encoding of a list of strings. -/
theorem rlpDecodeAll_strs : ∀ (es : List Bytes) (fuel : Nat), es.length < fuel →
    (∀ e ∈ es, e.length < 2 ^ 64) →
    rlpDecodeAll fuel (RlpItem.encodeAll (es.map RlpItem.str)) = .ok (es.map RlpItem.str) := by
  intro es
  induction es with
  | nil =>
    intro fuel hf _
    obtain ⟨f, rfl⟩ : ∃ f, fuel = f + 1 := ⟨fuel - 1, by omega⟩
    simp [rlpDecodeAll, RlpItem.encodeAll]
  | cons e es ih =>
    intro fuel hf hlen
    simp only [List.length_cons] at hf
    obtain ⟨f, rfl⟩ : ∃ f, fuel = f + 1 + 1 := ⟨fuel - 2, by omega⟩
    rw [encodeAll_strs_cons, rlpDecodeAll]
    have hne : (RlpItem.str e).encode ++ RlpItem.encodeAll (es.map RlpItem.str) ≠ [] := by
      have := (encode_str_length e).1
      intro h
      have h2 := congrArg List.length h
      simp only [List.length_append, List.length_nil] at h2
      omega
    rw [if_neg hne, rlpDecodeItem_str f e _ (hlen e (by simp))]
    dsimp only
    rw [ih (f + 1) (by omega) (fun x hx => hlen x (by simp [hx]))]
    rfl

/-- The strings of a list of string values. -/
theorem itemStrings_map (es : List Bytes) : itemStrings (es.map RlpItem.str) = .ok es := by
  induction es with
  | nil => rfl
  | cons e es ih => simp [itemStrings, ih]

/-- The byte string of an integer field: its value and no leading zero. -/
theorem uintField_spec (c : Nat) (hc : c < 2 ^ 64) :
    beValue (uintField c) = c ∧ (uintField c).head? ≠ some 0 ∧ (uintField c).length ≤ 8 := by
  unfold uintField
  split
  · rename_i h0
    subst h0
    simp [beValue]
  · rename_i h0
    obtain ⟨hv, _, hh, hl⟩ := putint_spec c (by omega) hc
    exact ⟨hv, hh, hl⟩

/-- The concrete encoding reads back the two fields it wrote, for a channel identifier of at
most 64 bits and an encoding shorter than `2 ^ 64` bytes. -/
theorem decodeFields_encode (c : Nat) (es : List Bytes) (hc : c < 2 ^ 64)
    (hsize : (fieldsItem c es).encode.length < 2 ^ 64) :
    decodeFields (fieldsItem c es).encode = .ok (c, es) := by
  obtain ⟨hcv, hch, hcl⟩ := uintField_spec c hc
  have henc : (fieldsItem c es).encode
      = rlpHeader 0xC0 ((RlpItem.str (uintField c)).encode
          ++ (rlpHeader 0xC0 (RlpItem.encodeAll (es.map RlpItem.str)).length
            ++ RlpItem.encodeAll (es.map RlpItem.str) ++ [])).length
        ++ ((RlpItem.str (uintField c)).encode
          ++ (rlpHeader 0xC0 (RlpItem.encodeAll (es.map RlpItem.str)).length
            ++ RlpItem.encodeAll (es.map RlpItem.str) ++ [])) ++ [] := by
    simp [fieldsItem, RlpItem.encode, RlpItem.encodeAll]
  have hl0 := encode_str_length (uintField c)
  have hl1 := rlpHeader_length_pos 0xC0 (RlpItem.encodeAll (es.map RlpItem.str)).length
  have hl2 := encodeAll_strs_length es
  have hl3 := rlpHeader_length_pos 0xC0 ((RlpItem.str (uintField c)).encode
      ++ (rlpHeader 0xC0 (RlpItem.encodeAll (es.map RlpItem.str)).length
        ++ RlpItem.encodeAll (es.map RlpItem.str) ++ [])).length
  have hlen := hsize
  rw [henc] at hlen
  simp only [List.length_append, List.length_nil, Nat.add_zero] at hlen hl3
  have hraw : es.length + 3 ≤ (fieldsItem c es).encode.length := by
    rw [henc]
    simp only [List.length_append, List.length_nil, Nat.add_zero]
    omega
  unfold decodeFields
  obtain ⟨f, hf⟩ : ∃ f, 2 * (fieldsItem c es).encode.length + 2 = f + 1 + 1 + 1 + 1 :=
    ⟨2 * (fieldsItem c es).encode.length - 2, by omega⟩
  rw [hf]
  have hB : ((RlpItem.str (uintField c)).encode
      ++ (rlpHeader 0xC0 (RlpItem.encodeAll (es.map RlpItem.str)).length
        ++ RlpItem.encodeAll (es.map RlpItem.str) ++ [])).length < 2 ^ 64 := by
    simp only [List.length_append, List.length_nil, Nat.add_zero]
    omega
  have hne1 : (RlpItem.str (uintField c)).encode
      ++ (rlpHeader 0xC0 (RlpItem.encodeAll (es.map RlpItem.str)).length
        ++ RlpItem.encodeAll (es.map RlpItem.str) ++ []) ≠ [] := by
    intro h
    have h2 := congrArg List.length h
    simp only [List.length_append, List.length_nil] at h2
    omega
  have hne2 : rlpHeader 0xC0 (RlpItem.encodeAll (es.map RlpItem.str)).length
      ++ RlpItem.encodeAll (es.map RlpItem.str) ++ [] ≠ [] := by
    intro h
    have h2 := congrArg List.length h
    simp only [List.length_append, List.length_nil] at h2
    omega
  have hstep : rlpDecodeItem (f + 1 + 1 + 1 + 1) (fieldsItem c es).encode
      = .ok (.list [.str (uintField c), .list (es.map RlpItem.str)], []) := by
    rw [henc, rlpDecodeItem_list _ _ _ hB, rlpDecodeAll, if_neg hne1,
      rlpDecodeItem_str _ _ _ (by omega)]
    dsimp only
    rw [rlpDecodeAll, if_neg hne2, rlpDecodeItem_list _ _ _ (by omega),
      rlpDecodeAll_strs es f (by omega) (fun e he => by have := hl2.2 e he; omega)]
    dsimp only
    rw [rlpDecodeAll, if_pos rfl]
  rw [hstep]
  dsimp only
  rw [if_neg hch, itemStrings_map, hcv]

/-- Under the concrete encoding the payload of every message of the four content kinds
round-trips, when its channel identifier has at most 64 bits and its encoding is shorter than
`2 ^ 64` bytes: the hypothesis of the round-trip law of the frame holds there. -/
theorem rlpCodecs_roundTrips (c : Nat) (es : List Bytes) (hc : c < 2 ^ 64)
    (hsize : (fieldsItem c es).encode.length < 2 ^ 64) :
    payloadRoundTrips rlpCodecs (.inventoryRequest ⟨c, es⟩) = true ∧
    payloadRoundTrips rlpCodecs (.inventoryResponse ⟨c, es⟩) = true ∧
    payloadRoundTrips rlpCodecs (.dataRequest ⟨c, es⟩) = true ∧
    payloadRoundTrips rlpCodecs (.dataResponse ⟨c, es⟩) = true := by
  have h := decodeFields_encode c es hc hsize
  refine ⟨?_, ?_, ?_, ?_⟩ <;> simp [payloadRoundTrips, rlpCodecs, h, Except.map]

end Netsync

/-! ## Properties of the sync manager -/

namespace Netsync

variable {W : Type}

/-- The request manager leaves the collaborators alone. -/
theorem enqueueBlocks_world (env : Env W) (sm : SyncManager W) (h : HashValue) :
    (enqueueBlocks env sm h).world = sm.world := by
  unfold enqueueBlocks; dsimp only; split <;> rfl

/-- The request manager leaves the orphan block pool alone. -/
theorem enqueueBlocks_orphanBlockPool (env : Env W) (sm : SyncManager W) (h : HashValue) :
    (enqueueBlocks env sm h).orphanBlockPool = sm.orphanBlockPool := by
  unfold enqueueBlocks; dsimp only; split <;> rfl

/-- The request manager leaves the orphan CC pool alone. -/
theorem enqueueBlocks_orphanCCPool (env : Env W) (sm : SyncManager W) (h : HashValue) :
    (enqueueBlocks env sm h).orphanCCPool = sm.orphanCCPool := by
  unfold enqueueBlocks; dsimp only; split <;> rfl

/-- The request manager hands nothing to the consensus engine. -/
theorem enqueueBlocks_delivered (env : Env W) (sm : SyncManager W) (h : HashValue) :
    (enqueueBlocks env sm h).delivered = sm.delivered := by
  unfold enqueueBlocks; dsimp only; split <;> rfl

/-- The request manager does not call `processData`. -/
theorem enqueueBlocks_processDataCalls (env : Env W) (sm : SyncManager W) (h : HashValue) :
    (enqueueBlocks env sm h).processDataCalls = sm.processDataCalls := by
  unfold enqueueBlocks; dsimp only; split <;> rfl

/-- Every call of `enqueueBlocks` is recorded. -/
theorem enqueueBlocks_enqueueCalls (env : Env W) (sm : SyncManager W) (h : HashValue) :
    (enqueueBlocks env sm h).enqueueCalls = sm.enqueueCalls ++ [h] := by
  unfold enqueueBlocks; dsimp only; split <;> rfl

/-- A hash the chain lacks is pending once enqueued. -/
theorem enqueueBlocks_pending (env : Env W) (sm : SyncManager W) (h : HashValue)
    (hf : env.FindBlock sm.world h = none) :
    h ∈ (enqueueBlocks env sm h).pendingHashes := by
  unfold enqueueBlocks; dsimp only
  split
  · rename_i hc
    rcases hc with hc | hc
    · exact hc
    · simp [hf] at hc
  · simp

/-- C8: `handleVote` drops the vote (no call of `consensus.AddMessage`, the state of the
collaborators untouched) and enqueues the hash of the referenced block exactly when the vote
references a block and `FindBlock` does not find it; in every other case the vote is handed
to the consensus engine once and nothing is enqueued. -/
theorem handleVote_triage (env : Env W) (sm : SyncManager W) (v : Vote) :
    ((∃ b, v.Block = some b ∧ env.FindBlock sm.world b.Hash = none) →
      ∃ b, v.Block = some b ∧ (handleVote env sm v).delivered = sm.delivered ∧
        (handleVote env sm v).world = sm.world ∧
        (handleVote env sm v).enqueueCalls = sm.enqueueCalls ++ [b.Hash] ∧
        b.Hash ∈ (handleVote env sm v).pendingHashes) ∧
    ((¬ ∃ b, v.Block = some b ∧ env.FindBlock sm.world b.Hash = none) →
      (handleVote env sm v).delivered = sm.delivered ++ [.vote v] ∧
        (handleVote env sm v).world = env.AddMessage sm.world (.vote v) ∧
        (handleVote env sm v).enqueueCalls = sm.enqueueCalls ∧
        (handleVote env sm v).pendingHashes = sm.pendingHashes) ∧
    (((handleVote env sm v).delivered = sm.delivered ∧
        (handleVote env sm v).enqueueCalls ≠ sm.enqueueCalls) ↔
      ∃ b, v.Block = some b ∧ env.FindBlock sm.world b.Hash = none) := by
  unfold handleVote
  cases hb : v.Block with
  | none => simp [consensusAddMessage]
  | some b =>
    cases hf : env.FindBlock sm.world b.Hash with
    | none =>
      simp [hf, enqueueBlocks_delivered, enqueueBlocks_world, enqueueBlocks_enqueueCalls,
        enqueueBlocks_pending]
    | some x => simp [hf, consensusAddMessage]

/-- The result of `handleBlock` for an orphan. -/
theorem handleBlock_of_orphan (env : Env W)
    (pd : SyncManager W → Entity → Option (SyncManager W)) (sm : SyncManager W) (B : Block)
    (horphan : IsOrphan env sm.world B = true) :
    handleBlock env pd sm B = some (enqueueBlocks env
      { sm with orphanBlockPool := OrphanBlockPool.Add sm.orphanBlockPool B } B.Hash) := by
  simp only [handleBlock, horphan, if_true]

/-- C4, as stated, fails: the orphan `blockB2` is fed while the chain holds the genesis block
only; the hash enqueued is the hash of `blockB2` itself, and the hash of its missing parent
is neither enqueued nor pending. -/
theorem orphan_parent_hash_not_enqueued :
    IsOrphan storeEnv genesisManager.world blockB2 = true ∧
    ∃ sm, handleBlock storeEnv (processData storeEnv 1) genesisManager blockB2 = some sm ∧
      sm.enqueueCalls = [blockB2.Hash] ∧ blockB2.ParentHash ∉ sm.enqueueCalls ∧
      blockB2.ParentHash ∉ sm.pendingHashes := by
  decide

/-- C4, amended: for every block the chain considers an orphan, `handleBlock` adds the block
to the orphan block pool (the pool then holds a block of that hash, and the block itself
unless a block of that hash was already buffered), enqueues the block's own hash `B.Hash`
with the request manager (which makes it pending unless the chain already holds a block of
that hash), hands nothing to the consensus engine and performs no cascade: no call of
`processData`, and the orphan CC pool is left as it was. -/
theorem handleBlock_orphan (env : Env W)
    (pd : SyncManager W → Entity → Option (SyncManager W)) (sm : SyncManager W) (B : Block)
    (horphan : IsOrphan env sm.world B = true) :
    ∃ sm1, handleBlock env pd sm B = some sm1 ∧
      (∃ b ∈ sm1.orphanBlockPool, b.Hash = B.Hash) ∧
      ((∀ b ∈ sm.orphanBlockPool, b.Hash ≠ B.Hash) → B ∈ sm1.orphanBlockPool) ∧
      (∀ b ∈ sm.orphanBlockPool, b ∈ sm1.orphanBlockPool) ∧
      sm1.enqueueCalls = sm.enqueueCalls ++ [B.Hash] ∧
      (env.FindBlock sm.world B.Hash = none → B.Hash ∈ sm1.pendingHashes) ∧
      sm1.delivered = sm.delivered ∧ sm1.world = sm.world ∧
      sm1.processDataCalls = sm.processDataCalls ∧ sm1.orphanCCPool = sm.orphanCCPool := by
  refine ⟨_, handleBlock_of_orphan env pd sm B horphan, ?_⟩
  simp only [enqueueBlocks_orphanBlockPool, enqueueBlocks_enqueueCalls,
    enqueueBlocks_delivered, enqueueBlocks_world, enqueueBlocks_processDataCalls,
    enqueueBlocks_orphanCCPool, true_and, and_true]
  refine ⟨?_, ?_, ?_, ?_⟩
  · unfold OrphanBlockPool.Add
    split
    · rename_i hany
      simpa using hany
    · exact ⟨B, by simp, rfl⟩
  · intro hnone
    unfold OrphanBlockPool.Add
    split
    · rename_i hany
      simp only [List.any_eq_true, beq_iff_eq] at hany
      obtain ⟨b, hb, hbe⟩ := hany
      exact absurd hbe (hnone b hb)
    · simp
  · intro b hb
    unfold OrphanBlockPool.Add
    split
    · exact hb
    · simp [hb]
  · intro hf
    exact enqueueBlocks_pending env _ _ hf

/-- Witness of C4, amended: the orphan `blockB2` over the chain that holds the genesis block
only. -/
theorem handleBlock_orphan_witness :
    IsOrphan storeEnv genesisManager.world blockB2 = true ∧
    ∃ sm1, handleBlock storeEnv (processData storeEnv 1) genesisManager blockB2 = some sm1 ∧
      (∃ b ∈ sm1.orphanBlockPool, b.Hash = blockB2.Hash) ∧
      ((∀ b ∈ genesisManager.orphanBlockPool, b.Hash ≠ blockB2.Hash) →
        blockB2 ∈ sm1.orphanBlockPool) ∧
      (∀ b ∈ genesisManager.orphanBlockPool, b ∈ sm1.orphanBlockPool) ∧
      sm1.enqueueCalls = genesisManager.enqueueCalls ++ [blockB2.Hash] ∧
      (storeEnv.FindBlock genesisManager.world blockB2.Hash = none →
        blockB2.Hash ∈ sm1.pendingHashes) ∧
      sm1.delivered = genesisManager.delivered ∧ sm1.world = genesisManager.world ∧
      sm1.processDataCalls = genesisManager.processDataCalls ∧
      sm1.orphanCCPool = genesisManager.orphanCCPool :=
  ⟨by decide, handleBlock_orphan storeEnv (processData storeEnv 1) genesisManager blockB2
    (by decide)⟩

end Netsync

namespace Netsync

variable {W : Type}

/-! ### The orphan pools -/

/-- The block of lowest hash is a block of the list. -/
theorem lowestHash_mem : ∀ (l : List Block) (m : Block), lowestHash l = some m → m ∈ l := by
  intro l
  induction l with
  | nil => intro m h; simp [lowestHash] at h
  | cons b rest ih =>
    intro m h
    simp only [lowestHash] at h
    split at h
    · simp only [Option.some.injEq] at h
      simp [h]
    · rename_i m2 hm2
      split at h
      · simp only [Option.some.injEq] at h
        simp [h]
      · simp only [Option.some.injEq] at h
        subst h
        exact List.mem_cons_of_mem _ (ih _ hm2)

/-- Only the empty list has no block of lowest hash. -/
theorem lowestHash_eq_none (l : List Block) (h : lowestHash l = none) : l = [] := by
  cases l with
  | nil => rfl
  | cons b rest =>
    simp only [lowestHash] at h
    split at h
    · simp at h
    · split at h <;> simp at h

/-- When no block is returned, the pool is unchanged and holds no child. -/
theorem tryGetNextBlock_none (pool : List Block) (h : HashValue)
    (hn : (OrphanBlockPool.TryGetNextBlock pool h).1 = none) :
    (OrphanBlockPool.TryGetNextBlock pool h).2 = pool ∧ ∀ b ∈ pool, b.ParentHash ≠ h := by
  unfold OrphanBlockPool.TryGetNextBlock at hn ⊢
  split at hn
  · rename_i hl
    refine ⟨rfl, ?_⟩
    have := lowestHash_eq_none _ hl
    intro b hb hp
    have hmem : b ∈ pool.filter (fun b => b.ParentHash == h) := by
      simp [List.mem_filter, hb, hp]
    rw [this] at hmem
    simp at hmem
  · simp at hn

/-- The block returned was in the pool, is a child, and the pool shrank. -/
theorem tryGetNextBlock_some (pool : List Block) (h : HashValue) (nb : Block)
    (hs : (OrphanBlockPool.TryGetNextBlock pool h).1 = some nb) :
    nb ∈ pool ∧ nb.ParentHash = h ∧
      (OrphanBlockPool.TryGetNextBlock pool h).2.length < pool.length ∧
      ∀ b ∈ (OrphanBlockPool.TryGetNextBlock pool h).2, b ∈ pool := by
  unfold OrphanBlockPool.TryGetNextBlock at hs ⊢
  split at hs
  · simp at hs
  · rename_i m hm
    simp only [Option.some.injEq] at hs
    subst hs
    have hmem := lowestHash_mem _ _ hm
    rw [List.mem_filter] at hmem
    refine ⟨hmem.1, by simpa using hmem.2, ?_, ?_⟩
    · apply List.length_filter_lt_length_iff_exists.mpr
      exact ⟨m, hmem.1, by simp⟩
    · intro b hb
      exact (List.mem_filter.mp hb).1

/-- When no certificate is returned, the pool is unchanged. -/
theorem tryGetCC_none (pool : List CommitCertificate) (h : HashValue)
    (hn : (OrphanCCPool.TryGetCCByBlockHash pool h).1 = none) :
    (OrphanCCPool.TryGetCCByBlockHash pool h).2 = pool := by
  unfold OrphanCCPool.TryGetCCByBlockHash at hn ⊢
  split at hn
  · rfl
  · simp at hn

/-- The certificate returned was in the pool for that hash, and the pool shrank and holds none
for that hash. -/
theorem tryGetCC_some (pool : List CommitCertificate) (h : HashValue) (c : CommitCertificate)
    (hs : (OrphanCCPool.TryGetCCByBlockHash pool h).1 = some c) :
    c ∈ pool ∧ c.BlockHash = h ∧
      (OrphanCCPool.TryGetCCByBlockHash pool h).2.length < pool.length ∧
      (∀ x ∈ (OrphanCCPool.TryGetCCByBlockHash pool h).2, x ∈ pool) ∧
      ∀ x ∈ (OrphanCCPool.TryGetCCByBlockHash pool h).2, x.BlockHash ≠ h := by
  unfold OrphanCCPool.TryGetCCByBlockHash at hs ⊢
  split at hs
  · simp at hs
  · rename_i m hm
    simp only [Option.some.injEq] at hs
    subst hs
    have hmem := List.mem_of_find?_eq_some hm
    have hp : m.BlockHash = h := by simpa using List.find?_some hm
    refine ⟨hmem, hp, ?_, ?_, ?_⟩
    · apply List.length_filter_lt_length_iff_exists.mpr
      exact ⟨m, hmem, by simp [hp]⟩
    · intro x hx
      exact (List.mem_filter.mp hx).1
    · intro x hx
      simpa using (List.mem_filter.mp hx).2

/-- The orphan CC pool grows by at most one certificate. -/
theorem ccAdd_length (pool : List CommitCertificate) (c : CommitCertificate) :
    (OrphanCCPool.Add pool c).length ≤ pool.length + 1 := by
  unfold OrphanCCPool.Add
  split <;> simp

/-- The orphan CC pool holds what it held and possibly the certificate added. -/
theorem ccAdd_mem (pool : List CommitCertificate) (c x : CommitCertificate)
    (hx : x ∈ OrphanCCPool.Add pool c) : x ∈ pool ∨ x = c := by
  unfold OrphanCCPool.Add at hx
  split at hx
  · exact Or.inl hx
  · simpa using hx

/-! ### The handlers -/

/-- The method `handleCC` leaves the orphan block pool alone. -/
theorem handleCC_orphanBlockPool (env : Env W) (sm : SyncManager W) (c : CommitCertificate) :
    (handleCC env sm c).orphanBlockPool = sm.orphanBlockPool := by
  unfold handleCC
  split
  · rw [enqueueBlocks_orphanBlockPool]
  · rfl

/-- The method `handleCC` does not call `processData`. -/
theorem handleCC_processDataCalls (env : Env W) (sm : SyncManager W) (c : CommitCertificate) :
    (handleCC env sm c).processDataCalls = sm.processDataCalls := by
  unfold handleCC
  split
  · rw [enqueueBlocks_processDataCalls]
  · rfl

/-- The method `handleCC` when the chain lacks the certified block. -/
theorem handleCC_absent (env : Env W) (sm : SyncManager W) (c : CommitCertificate)
    (hf : env.FindBlock sm.world c.BlockHash = none) :
    (handleCC env sm c).world = sm.world ∧ (handleCC env sm c).delivered = sm.delivered ∧
      (handleCC env sm c).orphanCCPool = OrphanCCPool.Add sm.orphanCCPool c ∧
      (handleCC env sm c).enqueueCalls = sm.enqueueCalls ++ [c.BlockHash] ∧
      c.BlockHash ∈ (handleCC env sm c).pendingHashes := by
  unfold handleCC
  simp only [hf]
  refine ⟨by rw [enqueueBlocks_world], by rw [enqueueBlocks_delivered],
    by rw [enqueueBlocks_orphanCCPool], by rw [enqueueBlocks_enqueueCalls], ?_⟩
  exact enqueueBlocks_pending env _ _ hf

/-- The method `handleCC` when the chain holds the certified block. -/
theorem handleCC_present (env : Env W) (sm : SyncManager W) (c : CommitCertificate)
    (hf : (env.FindBlock sm.world c.BlockHash).isSome = true) :
    handleCC env sm c = consensusAddMessage env sm (.cc c) := by
  unfold handleCC
  split
  · rename_i hn; simp [hn] at hf
  · rfl

/-- The method `processData` on a block. -/
theorem processData_block (env : Env W) (fuel : Nat) (sm : SyncManager W) (b : Block) :
    processData env (fuel + 1) sm (.block b) =
      handleBlock env (processData env fuel)
        { sm with processDataCalls := sm.processDataCalls + 1 } b := rfl

/-- The method `processData` on a certificate. -/
theorem processData_cc (env : Env W) (fuel : Nat) (sm : SyncManager W)
    (c : CommitCertificate) :
    processData env (fuel + 1) sm (.cc c) =
      some (handleCC env { sm with processDataCalls := sm.processDataCalls + 1 } c) := rfl

/-- One unfolding of `handleBlock` for a block that is no orphan. -/
theorem handleBlock_step (env : Env W) (fuel : Nat) (sm : SyncManager W) (B : Block)
    (hno : IsOrphan env sm.world B = false) :
    handleBlock env (processData env (fuel + 1)) sm B =
      match (OrphanBlockPool.TryGetNextBlock (afterCertificate env sm B).orphanBlockPool
          B.Hash).1 with
      | some nextBlock =>
        handleBlock env (processData env fuel)
          { afterCertificate env sm B with
            orphanBlockPool := (OrphanBlockPool.TryGetNextBlock
              (afterCertificate env sm B).orphanBlockPool B.Hash).2
            processDataCalls := (afterCertificate env sm B).processDataCalls + 1 } nextBlock
      | none =>
        some { afterCertificate env sm B with
          orphanBlockPool := (OrphanBlockPool.TryGetNextBlock
            (afterCertificate env sm B).orphanBlockPool B.Hash).2 } := by
  simp only [handleBlock, hno, afterCertificate, processData_cc, processData_block]
  cases hcc : (OrphanCCPool.TryGetCCByBlockHash
      (consensusAddMessage env sm (.block B)).orphanCCPool B.Hash).1 with
  | none => simp only [Bool.false_eq_true, if_false]
  | some c => simp only [Bool.false_eq_true, if_false]

/-- What the first half of `handleBlock` does to the state, for a block that is no orphan. -/
theorem afterCertificate_facts (env : Env W) (sm : SyncManager W) (B : Block) :
    (afterCertificate env sm B).orphanBlockPool = sm.orphanBlockPool ∧
    sm.processDataCalls ≤ (afterCertificate env sm B).processDataCalls ∧
    (∀ x ∈ (afterCertificate env sm B).orphanCCPool, x ∈ sm.orphanCCPool) ∧
    (∃ rest, (afterCertificate env sm B).delivered = sm.delivered ++ .block B :: rest) ∧
    ((afterCertificate env sm B).processDataCalls
          + (afterCertificate env sm B).orphanCCPool.length
        ≤ sm.processDataCalls + sm.orphanCCPool.length ∨
      ((afterCertificate env sm B).processDataCalls = sm.processDataCalls + 1 ∧
        (afterCertificate env sm B).orphanCCPool.length ≤ sm.orphanCCPool.length ∧
        1 ≤ sm.orphanCCPool.length ∧
        env.FindBlock (afterCertificate env sm B).world B.Hash = none)) := by
  unfold afterCertificate
  dsimp only
  cases hcc : (OrphanCCPool.TryGetCCByBlockHash
      (consensusAddMessage env sm (.block B)).orphanCCPool B.Hash).1 with
  | none =>
    have h2 := tryGetCC_none _ _ hcc
    dsimp only
    rw [h2]
    refine ⟨rfl, Nat.le_refl _, fun x hx => hx, ⟨[], rfl⟩, Or.inl (Nat.le_refl _)⟩
  | some c =>
    obtain ⟨hmem, hkey, hlen, hsub, _⟩ := tryGetCC_some _ _ _ hcc
    dsimp only
    have hpool : (consensusAddMessage env sm (.block B)).orphanCCPool = sm.orphanCCPool := rfl
    rw [hpool] at hmem hlen hsub ⊢
    refine ⟨by rw [handleCC_orphanBlockPool]; rfl,
      by rw [handleCC_processDataCalls]; exact Nat.le_succ _, ?_, ?_, ?_⟩
    · cases hf : env.FindBlock (env.AddMessage sm.world (.block B)) c.BlockHash with
      | none =>
        intro x hx
        rw [(handleCC_absent env _ c hf).2.2.1] at hx
        rcases ccAdd_mem _ _ _ hx with hx | hx
        · exact hsub x hx
        · exact hx ▸ hmem
      | some blk =>
        intro x hx
        rw [handleCC_present env _ c (by simp [consensusAddMessage, hf])] at hx
        exact hsub x hx
    · cases hf : env.FindBlock (env.AddMessage sm.world (.block B)) c.BlockHash with
      | none =>
        refine ⟨[], ?_⟩
        rw [(handleCC_absent env _ c hf).2.1]
        rfl
      | some blk =>
        refine ⟨[.cc c], ?_⟩
        rw [handleCC_present env _ c (by simp [consensusAddMessage, hf])]
        simp [consensusAddMessage]
    · rw [handleCC_processDataCalls]
      cases hf : env.FindBlock (env.AddMessage sm.world (.block B)) c.BlockHash with
      | none =>
        right
        obtain ⟨hw, _, hp, _, _⟩ := handleCC_absent env
          { consensusAddMessage env sm (.block B) with
            orphanCCPool := (OrphanCCPool.TryGetCCByBlockHash sm.orphanCCPool B.Hash).2
            processDataCalls := (consensusAddMessage env sm (.block B)).processDataCalls + 1 }
          c hf
        refine ⟨rfl, ?_, by omega, ?_⟩
        · rw [hp]
          have := ccAdd_length (OrphanCCPool.TryGetCCByBlockHash sm.orphanCCPool B.Hash).2 c
          dsimp only at this ⊢
          omega
        · rw [hw, ← hkey]
          exact hf
      | some blk =>
        left
        rw [handleCC_present env _ c (by simp [consensusAddMessage, hf])]
        simp only [consensusAddMessage]
        omega

/-- A block whose parent the chain lacks is an orphan. -/
theorem isOrphan_of_absent (env : Env W) (w : W) (b : Block)
    (h : env.FindBlock w b.ParentHash = none) : IsOrphan env w b = true := by
  simp [IsOrphan, h]

/-- The cascade of `handleBlock` returns when the depth bound exceeds the size of the orphan
block pool, and then: the number of calls of `processData` grew by at most the number of
entries of the two pools, the record of the consensus engine was extended, starting with the
block when it is no orphan, and the orphan CC pool holds no certificate it did not hold. -/
theorem handleBlock_cascade (env : Env W) :
    ∀ (fuel : Nat) (sm : SyncManager W) (B : Block), sm.orphanBlockPool.length < fuel →
      ∃ sm1, handleBlock env (processData env fuel) sm B = some sm1 ∧
        sm.processDataCalls ≤ sm1.processDataCalls ∧
        sm1.processDataCalls
          ≤ sm.processDataCalls + (sm.orphanBlockPool.length + sm.orphanCCPool.length) ∧
        (∃ rest, sm1.delivered = sm.delivered ++ rest) ∧
        (IsOrphan env sm.world B = false →
          ∃ rest, sm1.delivered = sm.delivered ++ .block B :: rest) ∧
        (IsOrphan env sm.world B = true → sm1.delivered = sm.delivered) ∧
        (∀ x ∈ sm1.orphanCCPool, x ∈ sm.orphanCCPool) := by
  intro fuel
  induction fuel with
  | zero => intro sm B h; omega
  | succ fuel ih =>
    intro sm B hfuel
    cases horphan : IsOrphan env sm.world B with
    | true =>
      refine ⟨_, handleBlock_of_orphan env _ sm B horphan, ?_⟩
      simp only [enqueueBlocks_processDataCalls, enqueueBlocks_delivered,
        enqueueBlocks_orphanCCPool]
      exact ⟨Nat.le_refl _, Nat.le_add_right _ _, ⟨[], by simp⟩, by simp, fun _ => trivial,
        fun x hx => hx⟩
    | false =>
      rw [handleBlock_step env fuel sm B horphan]
      obtain ⟨hpool, hcalls, hccsub, ⟨rest0, hdel⟩, hcase⟩ := afterCertificate_facts env sm B
      cases hnext : (OrphanBlockPool.TryGetNextBlock
          (afterCertificate env sm B).orphanBlockPool B.Hash).1 with
      | none =>
        refine ⟨_, rfl, hcalls, ?_, ⟨.block B :: rest0, hdel⟩, fun _ => ⟨rest0, hdel⟩,
          by simp, hccsub⟩
        dsimp only
        rcases hcase with hc | ⟨hc1, _, hc3, _⟩ <;> omega
      | some nb =>
        obtain ⟨hmem, hparent, hlen, _⟩ := tryGetNextBlock_some _ _ _ hnext
        rw [hpool] at hlen hmem
        dsimp only
        rcases hcase with hc | ⟨hc1, hc2, hc3, hc4⟩
        · obtain ⟨sm1, hrun, hlo, hhi, ⟨rest1, hd1⟩, _, _, hsub1⟩ := ih
            { afterCertificate env sm B with
              orphanBlockPool := (OrphanBlockPool.TryGetNextBlock
                (afterCertificate env sm B).orphanBlockPool B.Hash).2
              processDataCalls := (afterCertificate env sm B).processDataCalls + 1 } nb
            (by dsimp only; rw [hpool]; omega)
          dsimp only at hlo hhi hd1 hsub1
          rw [hpool] at hhi
          refine ⟨sm1, hrun, by omega, by omega, ?_, fun _ => ?_, by simp,
            fun x hx => hccsub x (hsub1 x hx)⟩
          · exact ⟨.block B :: rest0 ++ rest1, by rw [hd1, hdel]; simp⟩
          · exact ⟨rest0 ++ rest1, by rw [hd1, hdel]; simp⟩
        · have horph : IsOrphan env (afterCertificate env sm B).world nb = true :=
            isOrphan_of_absent env _ nb (by rw [hparent]; exact hc4)
          refine ⟨_, handleBlock_of_orphan env _ _ nb horph, ?_⟩
          simp only [enqueueBlocks_processDataCalls, enqueueBlocks_delivered,
            enqueueBlocks_orphanCCPool]
          refine ⟨by omega, by omega, ⟨.block B :: rest0, hdel⟩, fun _ => ⟨rest0, hdel⟩,
            by simp, hccsub⟩

end Netsync

namespace Netsync

variable {W : Type}

/-! ### The depth bound -/

/-- The method `handleBlock` keeps its result when `processData` is replaced by a function
that returns at least as often. -/
theorem handleBlock_mono (env : Env W)
    (pd pd2 : SyncManager W → Entity → Option (SyncManager W))
    (hpd : ∀ sm d r, pd sm d = some r → pd2 sm d = some r)
    (sm : SyncManager W) (B : Block) (r : SyncManager W)
    (h : handleBlock env pd sm B = some r) : handleBlock env pd2 sm B = some r := by
  unfold handleBlock at h ⊢
  split
  · rename_i ho
    simpa [ho] using h
  · rename_i ho
    simp only [ho, Bool.false_eq_true, if_false] at h
    dsimp only at h ⊢
    cases hcc : (OrphanCCPool.TryGetCCByBlockHash
        (consensusAddMessage env sm (.block B)).orphanCCPool B.Hash).1 with
    | none =>
      simp only [hcc] at h ⊢
      split at h
      · exact hpd _ _ _ h
      · exact h
    | some c =>
      simp only [hcc] at h ⊢
      cases hp : pd { consensusAddMessage env sm (.block B) with
          orphanCCPool := (OrphanCCPool.TryGetCCByBlockHash
            (consensusAddMessage env sm (.block B)).orphanCCPool B.Hash).2 } (.cc c) with
      | none => simp [hp] at h
      | some s3 =>
        rw [hpd _ _ _ hp]
        simp only [hp] at h
        dsimp only at h ⊢
        split at h
        · exact hpd _ _ _ h
        · exact h

/-- A result of `processData` does not depend on the depth bound: a larger bound gives the
same result. -/
theorem processData_mono (env : Env W) :
    ∀ (fuel : Nat) (sm : SyncManager W) (d : Entity) (r : SyncManager W),
      processData env fuel sm d = some r → processData env (fuel + 1) sm d = some r := by
  intro fuel
  induction fuel with
  | zero => intro sm d r h; simp [processData] at h
  | succ fuel ih =>
    intro sm d r h
    cases d with
    | cc c => exact h
    | vote v => exact h
    | block b =>
      rw [processData_block] at h ⊢
      exact handleBlock_mono env _ _ ih _ _ _ h
    | proposal p =>
      simp only [processData, handleProposal] at h ⊢
      exact handleBlock_mono env _ _ ih _ _ _ h

/-- A result of `processData` stays the same under any larger depth bound. -/
theorem processData_mono_add (env : Env W) (fuel extra : Nat) (sm : SyncManager W)
    (d : Entity) (r : SyncManager W) (h : processData env fuel sm d = some r) :
    processData env (fuel + extra) sm d = some r := by
  induction extra with
  | zero => exact h
  | succ n ih => exact processData_mono env _ _ _ _ ih

/-- C9: for every state of the two orphan pools and every block fed to `handleBlock`, the
recursion through `processData` returns once the depth bound exceeds the size of the orphan
block pool, with a result that no larger bound changes, and the number of calls of
`processData` it makes is at most the number of entries of the two pools (buffered blocks
plus buffered certificates) when the block arrives. -/
theorem cascade_terminates_bounded (env : Env W) (sm : SyncManager W) (B : Block) :
    ∃ sm1, (∀ extra, handleBlock env
        (processData env (sm.orphanBlockPool.length + 1 + extra)) sm B = some sm1) ∧
      sm.processDataCalls ≤ sm1.processDataCalls ∧
      sm1.processDataCalls - sm.processDataCalls
        ≤ sm.orphanBlockPool.length + sm.orphanCCPool.length := by
  obtain ⟨sm1, hrun, hlo, hhi, _⟩ :=
    handleBlock_cascade env (sm.orphanBlockPool.length + 1) sm B (Nat.lt_succ_self _)
  refine ⟨sm1, ?_, hlo, by omega⟩
  intro extra
  exact handleBlock_mono env _ _
    (fun s d r h => processData_mono_add env _ extra s d r h) _ _ _ hrun

/-! ### Feeding entities -/

/-- The method `handleCC` only extends the record of the consensus engine. -/
theorem handleCC_delivered_ext (env : Env W) (sm : SyncManager W) (c : CommitCertificate) :
    ∃ rest, (handleCC env sm c).delivered = sm.delivered ++ rest := by
  cases hf : env.FindBlock sm.world c.BlockHash with
  | none => exact ⟨[], by rw [(handleCC_absent env sm c hf).2.1]; simp⟩
  | some blk =>
    refine ⟨[.cc c], ?_⟩
    rw [handleCC_present env sm c (by simp [hf])]
    rfl

/-- Feeding one entity returns and only extends the record of the consensus engine. -/
theorem feedOne_total (env : Env W) (sm : SyncManager W) (d : Entity) :
    ∃ sm1, feedOne env sm d = some sm1 ∧ ∃ rest, sm1.delivered = sm.delivered ++ rest := by
  unfold feedOne
  cases d with
  | cc c =>
    exact ⟨_, rfl, handleCC_delivered_ext env
      { sm with processDataCalls := sm.processDataCalls + 1 } c⟩
  | vote v =>
    refine ⟨_, rfl, ?_⟩
    unfold handleVote
    cases v.Block with
    | none => exact ⟨[.vote v], rfl⟩
    | some vb =>
      dsimp only
      cases env.FindBlock sm.world vb.Hash with
      | none => exact ⟨[], by rw [enqueueBlocks_delivered]; simp⟩
      | some blk => exact ⟨[.vote v], rfl⟩
  | block b =>
    rw [processData_block]
    obtain ⟨sm1, hrun, _, _, hd, _⟩ := handleBlock_cascade env
      (sm.orphanBlockPool.length + 1)
      { sm with processDataCalls := sm.processDataCalls + 1 } b (Nat.lt_succ_self _)
    exact ⟨sm1, hrun, hd⟩
  | proposal p =>
    simp only [processData, handleProposal]
    cases hc : p.CommitCertificate with
    | none =>
      obtain ⟨sm1, hrun, _, _, hd, _⟩ := handleBlock_cascade env
        (sm.orphanBlockPool.length + 1)
        { sm with processDataCalls := sm.processDataCalls + 1 } p.Block (Nat.lt_succ_self _)
      exact ⟨sm1, hrun, hd⟩
    | some c =>
      dsimp only
      obtain ⟨sm1, hrun, _, _, ⟨rest, hd⟩, _⟩ := handleBlock_cascade env
        (sm.orphanBlockPool.length + 1)
        (handleCC env { sm with processDataCalls := sm.processDataCalls + 1 } c) p.Block
        (by rw [handleCC_orphanBlockPool]; exact Nat.lt_succ_self _)
      obtain ⟨rest0, hd0⟩ := handleCC_delivered_ext env
        { sm with processDataCalls := sm.processDataCalls + 1 } c
      refine ⟨sm1, hrun, rest0 ++ rest, ?_⟩
      rw [hd, hd0, List.append_assoc]

/-- Feeding one block: handed over first when it is no orphan, nothing handed over when it is. -/
theorem feedOne_block (env : Env W) (sm : SyncManager W) (B : Block) :
    ∃ sm1, feedOne env sm (.block B) = some sm1 ∧
      (IsOrphan env sm.world B = false →
        ∃ rest, sm1.delivered = sm.delivered ++ .block B :: rest) ∧
      (IsOrphan env sm.world B = true → sm1.delivered = sm.delivered) := by
  unfold feedOne
  rw [processData_block]
  obtain ⟨sm1, hrun, _, _, _, hno, ho, _⟩ := handleBlock_cascade env
    (sm.orphanBlockPool.length + 1)
    { sm with processDataCalls := sm.processDataCalls + 1 } B (Nat.lt_succ_self _)
  exact ⟨sm1, hrun, hno, ho⟩

/-- Feeding a sequence of entities returns and only extends the record of the consensus engine. -/
theorem feedAll_total (env : Env W) :
    ∀ (ds : List Entity) (sm : SyncManager W),
      ∃ sm1, feedAll env sm ds = some sm1 ∧ ∃ rest, sm1.delivered = sm.delivered ++ rest := by
  intro ds
  induction ds with
  | nil => intro sm; exact ⟨sm, rfl, [], by simp⟩
  | cons d rest ih =>
    intro sm
    obtain ⟨s1, h1, r1, hd1⟩ := feedOne_total env sm d
    obtain ⟨s2, h2, r2, hd2⟩ := ih s1
    refine ⟨s2, by simp only [feedAll, h1, h2], r1 ++ r2, ?_⟩
    rw [hd2, hd1, List.append_assoc]

/-- Feeding a sequence in two parts. -/
theorem feedAll_append (env : Env W) :
    ∀ (pre post : List Entity) (sm s1 : SyncManager W), feedAll env sm pre = some s1 →
      feedAll env sm (pre ++ post) = feedAll env s1 post := by
  intro pre
  induction pre with
  | nil =>
    intro post sm s1 h
    simp only [feedAll, Option.some.injEq] at h
    simp [h]
  | cons d rest ih =>
    intro post sm s1 h
    simp only [feedAll, List.cons_append] at h ⊢
    cases hone : feedOne env sm d with
    | none => simp [hone] at h
    | some s =>
      simp only [hone] at h ⊢
      exact ih post s s1 h

/-- C6, as stated, fails: the block `blockB1`, whose parent is in the chain, is fed twice and
`consensus.AddMessage` is called with it twice. -/
theorem resent_block_handed_twice :
    IsOrphan storeEnv genesisManager.world blockB1 = false ∧
    ∃ sm, feedAll storeEnv genesisManager [.block blockB1, .block blockB1] = some sm ∧
      sm.delivered = [.block blockB1, .block blockB1] ∧
      sm.delivered.count (.block blockB1) = 2 := by
  decide

/-- C6, amended: for every block `B` and every sequence of entities fed to `processData`,
each feeding of `B` at which `B` is no orphan calls `consensus.AddMessage` with `B` (so `B`
is handed over at least once if it was ever fed while not an orphan, and once more at every
such re-send: there is no de-duplication), a feeding at which `B` is an orphan hands nothing
to the consensus engine, and what was handed over stays handed over. -/
theorem feed_block_handoff (env : Env W) (sm : SyncManager W) (pre post : List Entity)
    (B : Block) :
    ∃ s1 s2 s3, feedAll env sm pre = some s1 ∧ feedOne env s1 (.block B) = some s2 ∧
      feedAll env s2 post = some s3 ∧
      feedAll env sm (pre ++ .block B :: post) = some s3 ∧
      (IsOrphan env s1.world B = false →
        s1.delivered.count (.block B) + 1 ≤ s2.delivered.count (.block B)) ∧
      (IsOrphan env s1.world B = true → s2.delivered = s1.delivered) ∧
      s2.delivered.count (.block B) ≤ s3.delivered.count (.block B) := by
  obtain ⟨s1, h1, _⟩ := feedAll_total env pre sm
  obtain ⟨s2, h2, hno, ho⟩ := feedOne_block env s1 B
  obtain ⟨s3, h3, r3, hd3⟩ := feedAll_total env post s2
  refine ⟨s1, s2, s3, h1, h2, h3, ?_, ?_, ho, ?_⟩
  · rw [feedAll_append env pre _ sm s1 h1]
    simp only [feedAll, h2, h3]
  · intro hn
    obtain ⟨rest, hd⟩ := hno hn
    rw [hd, List.count_append, List.count_cons_self]
    omega
  · rw [hd3, List.count_append]
    omega

end Netsync

namespace Netsync

variable {W : Type}

/-! ### A buffered certificate and its block -/

/-- A certificate added to a pool without a certificate for its hash is the one returned for
that hash, and the pool is back to what it was. -/
theorem tryGetCC_append_fresh (pool : List CommitCertificate) (c : CommitCertificate)
    (hfresh : ∀ x ∈ pool, x.BlockHash ≠ c.BlockHash) :
    OrphanCCPool.Add pool c = pool ++ [c] ∧
    OrphanCCPool.TryGetCCByBlockHash (pool ++ [c]) c.BlockHash = (some c, pool) := by
  have hany : pool.any (fun x => x.BlockHash == c.BlockHash) = false := by
    rw [List.any_eq_false]
    intro x hx
    simpa using hfresh x hx
  have hfind : pool.find? (fun x => x.BlockHash == c.BlockHash) = none := by
    rw [List.find?_eq_none]
    intro x hx
    simpa using hfresh x hx
  have hfilter : pool.filter (fun x => x.BlockHash != c.BlockHash) = pool := by
    rw [List.filter_eq_self]
    intro x hx
    simpa using hfresh x hx
  refine ⟨by simp [OrphanCCPool.Add, hany], ?_⟩
  simp [OrphanCCPool.TryGetCCByBlockHash, List.find?_append, hfind, List.filter_append,
    hfilter]

/-- No block is returned from a pool without a child. -/
theorem tryGetNextBlock_of_no_child (pool : List Block) (h : HashValue)
    (hno : ∀ b ∈ pool, b.ParentHash ≠ h) :
    (OrphanBlockPool.TryGetNextBlock pool h).1 = none := by
  cases hn : (OrphanBlockPool.TryGetNextBlock pool h).1 with
  | none => rfl
  | some nb =>
    obtain ⟨hmem, hp, _⟩ := tryGetNextBlock_some pool h nb hn
    exact absurd hp (hno nb hmem)

/-- The first half of `handleBlock` when the certificate of the block was buffered by
`handleCC` just before. -/
theorem afterCertificate_buffered (env : Env W) (sm : SyncManager W) (c : CommitCertificate)
    (B : Block) (hc : c.BlockHash = B.Hash)
    (hlacks : env.FindBlock sm.world B.Hash = none)
    (hcommit : (env.FindBlock (env.AddMessage sm.world (.block B)) B.Hash).isSome = true)
    (hfresh : ∀ x ∈ sm.orphanCCPool, x.BlockHash ≠ B.Hash) :
    (afterCertificate env (handleCC env sm c) B).delivered
        = sm.delivered ++ [.block B, .cc c] ∧
      (afterCertificate env (handleCC env sm c) B).orphanCCPool = sm.orphanCCPool ∧
      (afterCertificate env (handleCC env sm c) B).orphanBlockPool = sm.orphanBlockPool := by
  have hf : env.FindBlock sm.world c.BlockHash = none := by rw [hc]; exact hlacks
  obtain ⟨hw, hd, hp, _, _⟩ := handleCC_absent env sm c hf
  obtain ⟨hadd, hget⟩ := tryGetCC_append_fresh sm.orphanCCPool c (by rw [hc]; exact hfresh)
  have hbp := handleCC_orphanBlockPool env sm c
  unfold afterCertificate
  simp only [consensusAddMessage, hp, hadd, ← hc, hget, hw, hd, hbp]
  rw [handleCC_present env _ c (by rw [hc]; exact hcommit)]
  simp [consensusAddMessage]

/-- C7, as stated, fails: the chain lacks `blockB1` and holds its parent, but the orphan
block pool holds the child `blockB2`; after `handleCC` of the certificate and `handleBlock`
of `blockB1`, the consensus engine has received `blockB1`, the certificate, and `blockB2`
too. -/
theorem cc_then_block_cascades_child :
    ∃ s0, feedAll storeEnv genesisManager [.block blockB2] = some s0 ∧
      s0.delivered = [] ∧ certB1.BlockHash = blockB1.Hash ∧
      storeEnv.FindBlock s0.world blockB1.Hash = none ∧
      (storeEnv.FindBlock s0.world blockB1.ParentHash).isSome = true ∧
      ∃ s2, handleBlock storeEnv (processData storeEnv 2) (handleCC storeEnv s0 certB1)
          blockB1 = some s2 ∧
        s2.delivered = [.block blockB1, .cc certB1, .block blockB2] ∧
        s2.delivered ≠ [.block blockB1, .cc certB1] := by
  decide

/-- C7, amended: for every certificate `c` and block `B` with `c.BlockHash = B.Hash`, from a
state where the chain lacks `B.Hash` and holds the parent of `B`, and where the orphan CC
pool holds no certificate for `B.Hash`, `handleCC c` places `c` in the orphan CC pool,
enqueues `B.Hash`, which becomes pending, and hands nothing to the consensus engine; a
following `handleBlock B` makes the consensus engine receive `B` and then `c`, in that order
and before anything else, and exactly these two when the orphan block pool holds no child of
`B`; it leaves the orphan CC pool without a certificate for `B.Hash` (given that `FindBlock`
finds `B.Hash` once `B` is handed to the consensus engine). -/
theorem cc_orphan_then_block (env : Env W) (sm : SyncManager W) (c : CommitCertificate)
    (B : Block) (hc : c.BlockHash = B.Hash)
    (hlacks : env.FindBlock sm.world B.Hash = none)
    (hparent : (env.FindBlock sm.world B.ParentHash).isSome = true)
    (hcommit : (env.FindBlock (env.AddMessage sm.world (.block B)) B.Hash).isSome = true)
    (hfresh : ∀ x ∈ sm.orphanCCPool, x.BlockHash ≠ B.Hash) :
    c ∈ (handleCC env sm c).orphanCCPool ∧
    B.Hash ∈ (handleCC env sm c).pendingHashes ∧
    (handleCC env sm c).enqueueCalls = sm.enqueueCalls ++ [B.Hash] ∧
    (handleCC env sm c).delivered = sm.delivered ∧
    ∃ s2 rest,
      (∀ extra, handleBlock env (processData env (sm.orphanBlockPool.length + 1 + extra))
        (handleCC env sm c) B = some s2) ∧
      s2.delivered = sm.delivered ++ .block B :: .cc c :: rest ∧
      ((∀ b ∈ sm.orphanBlockPool, b.ParentHash ≠ B.Hash) → rest = []) ∧
      ∀ x ∈ s2.orphanCCPool, x.BlockHash ≠ B.Hash := by
  have hf : env.FindBlock sm.world c.BlockHash = none := by rw [hc]; exact hlacks
  obtain ⟨hw, hd, hp, hq, hpend⟩ := handleCC_absent env sm c hf
  obtain ⟨hadd, _⟩ := tryGetCC_append_fresh sm.orphanCCPool c (by rw [hc]; exact hfresh)
  obtain ⟨had, hacc, habp⟩ := afterCertificate_buffered env sm c B hc hlacks hcommit hfresh
  have hno : IsOrphan env (handleCC env sm c).world B = false := by
    rw [hw]
    simpa [IsOrphan] using hparent
  refine ⟨by rw [hp, hadd]; simp, hc ▸ hpend, hc ▸ hq, hd, ?_⟩
  have hbase : ∃ s2 rest,
      handleBlock env (processData env (sm.orphanBlockPool.length + 1))
        (handleCC env sm c) B = some s2 ∧
      s2.delivered = sm.delivered ++ .block B :: .cc c :: rest ∧
      ((∀ b ∈ sm.orphanBlockPool, b.ParentHash ≠ B.Hash) → rest = []) ∧
      ∀ x ∈ s2.orphanCCPool, x.BlockHash ≠ B.Hash := by
    rw [handleBlock_step env _ _ B hno]
    cases hnext : (OrphanBlockPool.TryGetNextBlock
        (afterCertificate env (handleCC env sm c) B).orphanBlockPool B.Hash).1 with
    | none =>
      refine ⟨_, [], rfl, by simpa using had, fun _ => rfl, ?_⟩
      intro x hx
      exact hfresh x (hacc ▸ hx)
    | some nb =>
      obtain ⟨hmem, hpar, hlen, _⟩ := tryGetNextBlock_some _ _ _ hnext
      rw [habp] at hlen hmem
      obtain ⟨s2, hrun, _, _, ⟨rest, hdel⟩, _, _, hsub⟩ := handleBlock_cascade env
        sm.orphanBlockPool.length
        { afterCertificate env (handleCC env sm c) B with
          orphanBlockPool := (OrphanBlockPool.TryGetNextBlock
            (afterCertificate env (handleCC env sm c) B).orphanBlockPool B.Hash).2
          processDataCalls :=
            (afterCertificate env (handleCC env sm c) B).processDataCalls + 1 } nb
        (by dsimp only; rw [habp]; exact hlen)
      dsimp only at hdel hsub
      refine ⟨s2, rest, hrun, by rw [hdel, had]; simp, ?_, ?_⟩
      · intro hnochild
        exact absurd hpar (hnochild nb hmem)
      · intro x hx
        exact hfresh x (hacc ▸ hsub x hx)
  obtain ⟨s2, rest, hrun, h1, h2, h3⟩ := hbase
  refine ⟨s2, rest, ?_, h1, h2, h3⟩
  intro extra
  exact handleBlock_mono env _ _
    (fun s d r h => processData_mono_add env _ extra s d r h) _ _ _ hrun

/-- Witness of C7, amended: the certificate `certB1` and then `blockB1`, over the chain that
holds the genesis block only. -/
theorem cc_orphan_then_block_witness :
    certB1.BlockHash = blockB1.Hash ∧
    storeEnv.FindBlock genesisManager.world blockB1.Hash = none ∧
    (storeEnv.FindBlock genesisManager.world blockB1.ParentHash).isSome = true ∧
    certB1 ∈ (handleCC storeEnv genesisManager certB1).orphanCCPool ∧
    blockB1.Hash ∈ (handleCC storeEnv genesisManager certB1).pendingHashes ∧
    (handleCC storeEnv genesisManager certB1).enqueueCalls
      = genesisManager.enqueueCalls ++ [blockB1.Hash] ∧
    (handleCC storeEnv genesisManager certB1).delivered = genesisManager.delivered ∧
    ∃ s2 rest,
      (∀ extra, handleBlock storeEnv
          (processData storeEnv (genesisManager.orphanBlockPool.length + 1 + extra))
          (handleCC storeEnv genesisManager certB1) blockB1 = some s2) ∧
      s2.delivered = genesisManager.delivered ++ .block blockB1 :: .cc certB1 :: rest ∧
      ((∀ b ∈ genesisManager.orphanBlockPool, b.ParentHash ≠ blockB1.Hash) → rest = []) ∧
      ∀ x ∈ s2.orphanCCPool, x.BlockHash ≠ blockB1.Hash :=
  ⟨by decide, by decide, by decide,
    cc_orphan_then_block storeEnv genesisManager certB1 blockB1 (by decide) (by decide)
      (by decide) (by decide) (by decide)⟩

/-- C5, as stated, fails: two children of `blockB1` on a fork are buffered, then `blockB1`
arrives and is no orphan.  `handleBlock` takes one child out of the pool and hands it over;
the other child stays in the orphan block pool although the chain no longer reports it as an
orphan. -/
theorem sibling_left_in_pool :
    ∃ s0, feedAll storeEnv genesisManager [.block blockB2, .block blockB2x] = some s0 ∧
      s0.orphanBlockPool = [blockB2, blockB2x] ∧
      IsOrphan storeEnv s0.world blockB1 = false ∧
      ∃ s1, handleBlock storeEnv (processData storeEnv 3) s0 blockB1 = some s1 ∧
        s1.delivered = [.block blockB1, .block blockB2] ∧
        s1.orphanBlockPool = [blockB2x] ∧
        blockB2x.ParentHash = blockB1.Hash ∧
        IsOrphan storeEnv s1.world blockB2x = false := by
  decide

end Netsync

namespace Netsync

variable {W : Type}

/-! ### One child per block -/

/-- The pool left holds only blocks the pool held. -/
theorem tryGetNextBlock_subset (pool : List Block) (h : HashValue) :
    ∀ b ∈ (OrphanBlockPool.TryGetNextBlock pool h).2, b ∈ pool := by
  cases hn : (OrphanBlockPool.TryGetNextBlock pool h).1 with
  | none =>
    rw [(tryGetNextBlock_none pool h hn).1]
    exact fun b hb => hb
  | some nb => exact (tryGetNextBlock_some pool h nb hn).2.2.2

/-- The pool left holds no block of the hash of the block returned. -/
theorem tryGetNextBlock_removed (pool : List Block) (h : HashValue) (nb : Block)
    (hs : (OrphanBlockPool.TryGetNextBlock pool h).1 = some nb) :
    ∀ b ∈ (OrphanBlockPool.TryGetNextBlock pool h).2, b.Hash ≠ nb.Hash := by
  unfold OrphanBlockPool.TryGetNextBlock at hs ⊢
  split at hs
  · simp at hs
  · simp only [Option.some.injEq] at hs
    subst hs
    intro b hb
    simpa using (List.mem_filter.mp hb).2

/-- Once a block is handed to the consensus engine and stays in the chain, `FindBlock` finds
it after the first half of `handleBlock`. -/
theorem afterCertificate_found (env : Env W)
    (hcommit : ∀ w b, (env.FindBlock (env.AddMessage w (.block b)) b.Hash).isSome = true)
    (hkeep : ∀ w e h, (env.FindBlock w h).isSome = true →
      (env.FindBlock (env.AddMessage w e) h).isSome = true)
    (sm : SyncManager W) (B : Block) :
    (env.FindBlock (afterCertificate env sm B).world B.Hash).isSome = true := by
  unfold afterCertificate
  dsimp only
  cases hcc : (OrphanCCPool.TryGetCCByBlockHash
      (consensusAddMessage env sm (.block B)).orphanCCPool B.Hash).1 with
  | none => exact hcommit sm.world B
  | some c =>
    dsimp only
    cases hf : env.FindBlock (env.AddMessage sm.world (.block B)) c.BlockHash with
    | none =>
      rw [(handleCC_absent env _ c hf).1]
      exact hcommit sm.world B
    | some blk =>
      rw [handleCC_present env _ c (by simp [consensusAddMessage, hf])]
      exact hkeep _ _ _ (hcommit sm.world B)

/-- The cascade of `handleBlock` for a block that is no orphan, over a chain that holds every
block handed to the consensus engine: the pool is left with blocks it held after the child of
lowest hash was taken out, and the block and that child are handed over. -/
theorem handleBlock_drains (env : Env W)
    (hcommit : ∀ w b, (env.FindBlock (env.AddMessage w (.block b)) b.Hash).isSome = true)
    (hkeep : ∀ w e h, (env.FindBlock w h).isSome = true →
      (env.FindBlock (env.AddMessage w e) h).isSome = true) :
    ∀ (fuel : Nat) (sm : SyncManager W) (B : Block), sm.orphanBlockPool.length < fuel →
      IsOrphan env sm.world B = false →
      ∃ sm1, handleBlock env (processData env fuel) sm B = some sm1 ∧
        (∀ b ∈ sm1.orphanBlockPool,
          b ∈ (OrphanBlockPool.TryGetNextBlock sm.orphanBlockPool B.Hash).2) ∧
        (∀ e ∈ sm.delivered, e ∈ sm1.delivered) ∧
        .block B ∈ sm1.delivered ∧
        (∀ nb, (OrphanBlockPool.TryGetNextBlock sm.orphanBlockPool B.Hash).1 = some nb →
          .block nb ∈ sm1.delivered) := by
  intro fuel
  induction fuel with
  | zero => intro sm B h; omega
  | succ fuel ih =>
    intro sm B hfuel hno
    rw [handleBlock_step env fuel sm B hno]
    obtain ⟨hpool, _, _, ⟨rest0, hdel⟩, _⟩ := afterCertificate_facts env sm B
    have hfound := afterCertificate_found env hcommit hkeep sm B
    have hold : ∀ e ∈ sm.delivered, e ∈ (afterCertificate env sm B).delivered := by
      intro e he
      rw [hdel]
      simp [he]
    have hB : Entity.block B ∈ (afterCertificate env sm B).delivered := by
      rw [hdel]
      simp
    rw [hpool]
    cases hnext : (OrphanBlockPool.TryGetNextBlock sm.orphanBlockPool B.Hash).1 with
    | none =>
      refine ⟨_, rfl, fun b hb => hb, hold, hB, ?_⟩
      intro nb hnb
      simp at hnb
    | some nb =>
      obtain ⟨hmem, hparent, hlen, _⟩ := tryGetNextBlock_some _ _ _ hnext
      have hnb : IsOrphan env (afterCertificate env sm B).world nb = false := by
        have := hfound
        rw [← hparent] at this
        simp only [IsOrphan]
        cases hx : env.FindBlock (afterCertificate env sm B).world nb.ParentHash with
        | none => simp [hx] at this
        | some blk => rfl
      obtain ⟨sm1, hrun, hsub, hmono, hin, _⟩ := ih
        { afterCertificate env sm B with
          orphanBlockPool := (OrphanBlockPool.TryGetNextBlock sm.orphanBlockPool B.Hash).2
          processDataCalls := (afterCertificate env sm B).processDataCalls + 1 } nb
        (by dsimp only; omega) hnb
      dsimp only at hrun hsub hmono hin ⊢
      refine ⟨sm1, hrun, ?_, fun e he => hmono e (hold e he), hmono _ hB, ?_⟩
      · intro b hb
        exact tryGetNextBlock_subset _ _ b (hsub b hb)
      · intro nb2 hnb2
        simp only [Option.some.injEq] at hnb2
        subst hnb2
        exact hin

/-- What the first half of `handleBlock` hands to the consensus engine: the block, and after
it no block at all (at most the certificate of the block). -/
theorem afterCertificate_delivered (env : Env W) (sm : SyncManager W) (B : Block) :
    ∃ rest, (afterCertificate env sm B).delivered = sm.delivered ++ .block B :: rest ∧
      ∀ x, Entity.block x ∉ rest := by
  unfold afterCertificate
  dsimp only
  cases hcc : (OrphanCCPool.TryGetCCByBlockHash
      (consensusAddMessage env sm (.block B)).orphanCCPool B.Hash).1 with
  | none => exact ⟨[], rfl, by simp⟩
  | some c =>
    dsimp only
    cases hf : env.FindBlock (env.AddMessage sm.world (.block B)) c.BlockHash with
    | none =>
      refine ⟨[], ?_, by simp⟩
      rw [(handleCC_absent env _ c hf).2.1]
      rfl
    | some blk =>
      refine ⟨[.cc c], ?_, by simp⟩
      rw [handleCC_present env _ c (by simp [consensusAddMessage, hf])]
      simp [consensusAddMessage]

/-- A child of a block found by `FindBlock` is no orphan. -/
theorem not_orphan_of_found (env : Env W) (w : W) (nb : Block) (h : HashValue)
    (hparent : nb.ParentHash = h) (hfound : (env.FindBlock w h).isSome = true) :
    IsOrphan env w nb = false := by
  rw [← hparent] at hfound
  simp only [IsOrphan]
  cases hx : env.FindBlock w nb.ParentHash with
  | none => simp [hx] at hfound
  | some blk => rfl

/-- The cascade of `handleBlock` for a block that is no orphan, over a chain that holds every
block handed to the consensus engine: what is handed over is the block and then, among
blocks, only blocks taken out of the pool, whose hash the pool no longer holds; and a block
leaves the pool only when a buffered block of its hash is handed over. -/
theorem handleBlock_handed (env : Env W)
    (hcommit : ∀ w b, (env.FindBlock (env.AddMessage w (.block b)) b.Hash).isSome = true)
    (hkeep : ∀ w e h, (env.FindBlock w h).isSome = true →
      (env.FindBlock (env.AddMessage w e) h).isSome = true) :
    ∀ (fuel : Nat) (sm : SyncManager W) (B : Block), sm.orphanBlockPool.length < fuel →
      IsOrphan env sm.world B = false →
      ∃ sm1 rest, handleBlock env (processData env fuel) sm B = some sm1 ∧
        sm1.delivered = sm.delivered ++ .block B :: rest ∧
        (∀ y ∈ sm1.orphanBlockPool, y ∈ sm.orphanBlockPool) ∧
        (∀ x, .block x ∈ rest →
          x ∈ sm.orphanBlockPool ∧ ∀ y ∈ sm1.orphanBlockPool, y.Hash ≠ x.Hash) ∧
        (∀ b ∈ sm.orphanBlockPool, b ∈ sm1.orphanBlockPool ∨
          ∃ x ∈ sm.orphanBlockPool, x.Hash = b.Hash ∧ .block x ∈ rest) := by
  intro fuel
  induction fuel with
  | zero => intro sm B h; omega
  | succ fuel ih =>
    intro sm B hfuel hno
    rw [handleBlock_step env fuel sm B hno]
    obtain ⟨hpool, _⟩ := afterCertificate_facts env sm B
    obtain ⟨rest0, hdel, hnoblock⟩ := afterCertificate_delivered env sm B
    have hfound := afterCertificate_found env hcommit hkeep sm B
    rw [hpool]
    cases hnext : (OrphanBlockPool.TryGetNextBlock sm.orphanBlockPool B.Hash).1 with
    | none =>
      have hsame := (tryGetNextBlock_none _ _ hnext).1
      refine ⟨_, rest0, rfl, hdel, ?_, ?_, ?_⟩
      · intro y hy
        dsimp only at hy
        rw [hsame] at hy
        exact hy
      · intro x hx
        exact absurd hx (hnoblock x)
      · intro b hb
        left
        dsimp only
        rw [hsame]
        exact hb
    | some nb =>
      obtain ⟨hmem, hparent, hlen, hsubset⟩ := tryGetNextBlock_some _ _ _ hnext
      have hremoved := tryGetNextBlock_removed _ _ nb hnext
      have hnb := not_orphan_of_found env _ nb B.Hash hparent hfound
      obtain ⟨sm1, rest1, hrun, hd1, hsub1, hrest1, hleave1⟩ := ih
        { afterCertificate env sm B with
          orphanBlockPool := (OrphanBlockPool.TryGetNextBlock sm.orphanBlockPool B.Hash).2
          processDataCalls := (afterCertificate env sm B).processDataCalls + 1 } nb
        (by dsimp only; omega) hnb
      dsimp only at hrun hd1 hsub1 hrest1 hleave1 ⊢
      refine ⟨sm1, rest0 ++ .block nb :: rest1, hrun, by rw [hd1, hdel]; simp,
        fun y hy => hsubset y (hsub1 y hy), ?_, ?_⟩
      · intro x hx
        rcases List.mem_append.mp hx with hx | hx
        · exact absurd hx (hnoblock x)
        · rcases List.mem_cons.mp hx with hx | hx
          · have hxe : x = nb := by simpa using hx
            subst hxe
            exact ⟨hmem, fun y hy => hremoved y (hsub1 y hy)⟩
          · exact ⟨hsubset x (hrest1 x hx).1, (hrest1 x hx).2⟩
      · intro b hb
        by_cases hbh : b.Hash = nb.Hash
        · right
          exact ⟨nb, hmem, hbh.symm, by simp⟩
        · have hb2 : b ∈ (OrphanBlockPool.TryGetNextBlock sm.orphanBlockPool B.Hash).2 := by
            unfold OrphanBlockPool.TryGetNextBlock at hnext ⊢
            split at hnext
            · simp at hnext
            · simp only [Option.some.injEq] at hnext
              subst hnext
              simp [List.mem_filter, hb, hbh]
          rcases hleave1 b hb2 with h1 | ⟨x, hx, hxh, hxr⟩
          · exact Or.inl h1
          · right
            exact ⟨x, hsubset x hx, hxh, by simp [hxr]⟩

/-- The cascade of `handleBlock` never touches the buffered children of a hash `h` that is
neither the hash of the block handled nor the hash of a buffered block, in a pool that holds
one block per hash: they are all in the pool when `handleBlock` returns. -/
theorem handleBlock_keeps_children (env : Env W)
    (hcommit : ∀ w b, (env.FindBlock (env.AddMessage w (.block b)) b.Hash).isSome = true)
    (hkeep : ∀ w e h, (env.FindBlock w h).isSome = true →
      (env.FindBlock (env.AddMessage w e) h).isSome = true) (h : HashValue) :
    ∀ (fuel : Nat) (sm : SyncManager W) (Z : Block), sm.orphanBlockPool.length < fuel →
      IsOrphan env sm.world Z = false → Z.Hash ≠ h →
      (∀ x ∈ sm.orphanBlockPool, x.Hash ≠ h) →
      (∀ x ∈ sm.orphanBlockPool, ∀ y ∈ sm.orphanBlockPool, x.Hash = y.Hash → x = y) →
      ∃ sm1, handleBlock env (processData env fuel) sm Z = some sm1 ∧
        ∀ b ∈ sm.orphanBlockPool, b.ParentHash = h → b ∈ sm1.orphanBlockPool := by
  intro fuel
  induction fuel with
  | zero => intro sm Z hf; omega
  | succ fuel ih =>
    intro sm Z hfuel hno hZ hfresh huniq
    rw [handleBlock_step env fuel sm Z hno]
    obtain ⟨hpool, _⟩ := afterCertificate_facts env sm Z
    have hfound := afterCertificate_found env hcommit hkeep sm Z
    rw [hpool]
    cases hnext : (OrphanBlockPool.TryGetNextBlock sm.orphanBlockPool Z.Hash).1 with
    | none =>
      have hsame := (tryGetNextBlock_none _ _ hnext).1
      refine ⟨_, rfl, ?_⟩
      intro b hb _
      dsimp only
      rw [hsame]
      exact hb
    | some nb =>
      obtain ⟨hmem, hparent, hlen, hsubset⟩ := tryGetNextBlock_some _ _ _ hnext
      have hnb := not_orphan_of_found env _ nb Z.Hash hparent hfound
      obtain ⟨sm1, hrun, hkeep1⟩ := ih
        { afterCertificate env sm Z with
          orphanBlockPool := (OrphanBlockPool.TryGetNextBlock sm.orphanBlockPool Z.Hash).2
          processDataCalls := (afterCertificate env sm Z).processDataCalls + 1 } nb
        (by dsimp only; omega) hnb (hfresh nb hmem)
        (fun x hx => hfresh x (hsubset x hx))
        (fun x hx y hy hxy => huniq x (hsubset x hx) y (hsubset y hy) hxy)
      dsimp only at hrun hkeep1 ⊢
      refine ⟨sm1, hrun, ?_⟩
      intro b hb hbp
      apply hkeep1 b _ hbp
      have hne : b.Hash ≠ nb.Hash := by
        intro hbe
        have hbn : b = nb := huniq b hb nb hmem hbe
        rw [hbn, hparent] at hbp
        exact hZ hbp
      unfold OrphanBlockPool.TryGetNextBlock at hnext ⊢
      split at hnext
      · simp at hnext
      · simp only [Option.some.injEq] at hnext
        subst hnext
        simp [List.mem_filter, hb, hne]

/-- C5, amended: over a chain that no longer reports a block as an orphan once its parent
was handed to the consensus engine, `handleBlock` of a block `B` that is no orphan takes
one child of `B` out of the orphan block pool, the one of lowest hash, and re-enters it into
`processData`, which hands it to the consensus engine; nothing is added to the pool; when
the pool held at most one child of `B` (any two buffered children of `B` have the same
hash), it holds no block whose `ParentHash` equals `B.Hash` when `handleBlock` returns.
What is handed over is `B` first and then, among blocks, only blocks taken out of the pool,
and a block leaves the pool only when a buffered block of its hash is handed over.  The
further children of `B` on a fork stay buffered and are not handed over: in a pool that
holds one block per hash and no block of the hash of `B`, every buffered child of `B` other
than the one of lowest hash is still in the pool when `handleBlock` returns, and is handed
to the consensus engine only if it had been before. -/
theorem cascade_resolves_one_child (env : Env W)
    (hcommit : ∀ w b, (env.FindBlock (env.AddMessage w (.block b)) b.Hash).isSome = true)
    (hkeep : ∀ w e h, (env.FindBlock w h).isSome = true →
      (env.FindBlock (env.AddMessage w e) h).isSome = true)
    (sm : SyncManager W) (B : Block) (hno : IsOrphan env sm.world B = false) :
    ∃ sm1,
      (∀ extra, handleBlock env
        (processData env (sm.orphanBlockPool.length + 1 + extra)) sm B = some sm1) ∧
      (∀ b ∈ sm1.orphanBlockPool, b ∈ sm.orphanBlockPool) ∧
      (∀ nb, (OrphanBlockPool.TryGetNextBlock sm.orphanBlockPool B.Hash).1 = some nb →
        (∀ b ∈ sm1.orphanBlockPool, b.Hash ≠ nb.Hash) ∧ .block nb ∈ sm1.delivered) ∧
      ((∀ b1 ∈ sm.orphanBlockPool, ∀ b2 ∈ sm.orphanBlockPool,
          b1.ParentHash = B.Hash → b2.ParentHash = B.Hash → b1.Hash = b2.Hash) →
        ∀ b ∈ sm1.orphanBlockPool, b.ParentHash ≠ B.Hash) ∧
      (∃ rest, sm1.delivered = sm.delivered ++ .block B :: rest ∧
        (∀ x, .block x ∈ rest →
          x ∈ sm.orphanBlockPool ∧ ∀ y ∈ sm1.orphanBlockPool, y.Hash ≠ x.Hash) ∧
        (∀ b ∈ sm.orphanBlockPool, b ∈ sm1.orphanBlockPool ∨
          ∃ x ∈ sm.orphanBlockPool, x.Hash = b.Hash ∧ .block x ∈ rest)) ∧
      ((∀ x ∈ sm.orphanBlockPool, x.Hash ≠ B.Hash) →
        (∀ x ∈ sm.orphanBlockPool, ∀ y ∈ sm.orphanBlockPool, x.Hash = y.Hash → x = y) →
        ∀ nb, (OrphanBlockPool.TryGetNextBlock sm.orphanBlockPool B.Hash).1 = some nb →
          ∀ b ∈ sm.orphanBlockPool, b.ParentHash = B.Hash → b ≠ nb →
            b ∈ sm1.orphanBlockPool ∧
            (Entity.block b ∉ sm.delivered → Entity.block b ∉ sm1.delivered)) := by
  obtain ⟨sm1, hrun, hsub, _, _, hin⟩ := handleBlock_drains env hcommit hkeep
    (sm.orphanBlockPool.length + 1) sm B (Nat.lt_succ_self _) hno
  obtain ⟨sm2, rest, hrun2, hdel, _, hrest, hleave⟩ := handleBlock_handed env hcommit hkeep
    (sm.orphanBlockPool.length + 1) sm B (Nat.lt_succ_self _) hno
  have h12 : sm2 = sm1 := Option.some.inj (hrun2.symm.trans hrun)
  subst h12
  refine ⟨sm2, ?_, fun b hb => tryGetNextBlock_subset _ _ b (hsub b hb), ?_, ?_,
    ⟨rest, hdel, hrest, hleave⟩, ?_⟩
  · intro extra
    exact handleBlock_mono env _ _
      (fun s d r h => processData_mono_add env _ extra s d r h) _ _ _ hrun
  · intro nb hnb
    exact ⟨fun b hb => tryGetNextBlock_removed _ _ nb hnb b (hsub b hb), hin nb hnb⟩
  · intro hone b hb hpar
    cases hnext : (OrphanBlockPool.TryGetNextBlock sm.orphanBlockPool B.Hash).1 with
    | none =>
      exact (tryGetNextBlock_none _ _ hnext).2 b
        (tryGetNextBlock_subset _ _ b (hsub b hb)) hpar
    | some nb =>
      obtain ⟨hmem, hparent, _, _⟩ := tryGetNextBlock_some _ _ _ hnext
      exact tryGetNextBlock_removed _ _ nb hnext b (hsub b hb)
        (hone b (tryGetNextBlock_subset _ _ b (hsub b hb)) nb hmem hpar hparent)
  · intro hfresh huniq nb hnext b hb hbp hbn
    obtain ⟨hmem, hparent, hlen, hsubset⟩ := tryGetNextBlock_some _ _ _ hnext
    have hstay : b ∈ sm2.orphanBlockPool := by
      have hstep := handleBlock_step env sm.orphanBlockPool.length sm B hno
      rw [hrun] at hstep
      obtain ⟨hpool, _⟩ := afterCertificate_facts env sm B
      have hfound := afterCertificate_found env hcommit hkeep sm B
      rw [hpool] at hstep
      simp only [hnext] at hstep
      have hnb := not_orphan_of_found env _ nb B.Hash hparent hfound
      obtain ⟨sm3, hrun3, hkeep3⟩ := handleBlock_keeps_children env hcommit hkeep B.Hash
        sm.orphanBlockPool.length
        { afterCertificate env sm B with
          orphanBlockPool := (OrphanBlockPool.TryGetNextBlock sm.orphanBlockPool B.Hash).2
          processDataCalls := (afterCertificate env sm B).processDataCalls + 1 } nb
        (by dsimp only; omega) hnb (hfresh nb hmem)
        (fun x hx => hfresh x (hsubset x hx))
        (fun x hx y hy hxy => huniq x (hsubset x hx) y (hsubset y hy) hxy)
      have h23 : sm2 = sm3 := Option.some.inj (hstep.trans hrun3)
      subst h23
      apply hkeep3 b _ hbp
      have hne : b.Hash ≠ nb.Hash := fun hbe => hbn (huniq b hb nb hmem hbe)
      unfold OrphanBlockPool.TryGetNextBlock at hnext ⊢
      split at hnext
      · simp at hnext
      · simp only [Option.some.injEq] at hnext
        subst hnext
        simp [List.mem_filter, hb, hne]
    refine ⟨hstay, ?_⟩
    intro hnot hin2
    rw [hdel] at hin2
    rcases List.mem_append.mp hin2 with hx | hx
    · exact hnot hx
    · rcases List.mem_cons.mp hx with hx | hx
      · have hbB : b = B := by simpa using hx
        exact hfresh b hb (by rw [hbB])
      · exact (hrest b hx).2 b hstay rfl

/-- The chain `storeEnv` holds a block once it is handed to the consensus engine. -/
theorem storeEnv_commit (w : List Block) (b : Block) :
    (storeEnv.FindBlock (storeEnv.AddMessage w (.block b)) b.Hash).isSome = true := by
  simp [storeEnv, List.find?_append]

/-- The chain `storeEnv` keeps the blocks it holds. -/
theorem storeEnv_keep (w : List Block) (e : Entity) (h : HashValue)
    (hf : (storeEnv.FindBlock w h).isSome = true) :
    (storeEnv.FindBlock (storeEnv.AddMessage w e) h).isSome = true := by
  cases e with
  | block b =>
    simp only [storeEnv, List.find?_append] at hf ⊢
    cases hx : List.find? (fun b => b.Hash == h) w with
    | none => simp [hx] at hf
    | some blk => simp
  | _ => exact hf

/-- The state `forkManager` is the one reached by feeding the two children to a sync manager
just created. -/
theorem forkManager_reached :
    feedAll storeEnv genesisManager [.block blockB2, .block blockB2x] = some forkManager := by
  decide

/-- Witness of C5, amended: `blockB1` arrives at a sync manager that buffered its two
children `blockB2` and `blockB2x`. -/
theorem cascade_resolves_one_child_witness :
    (∀ w b, (storeEnv.FindBlock (storeEnv.AddMessage w (.block b)) b.Hash).isSome = true) ∧
    (∀ w e h, (storeEnv.FindBlock w h).isSome = true →
      (storeEnv.FindBlock (storeEnv.AddMessage w e) h).isSome = true) ∧
    IsOrphan storeEnv forkManager.world blockB1 = false ∧
    ∃ sm1,
      (∀ extra, handleBlock storeEnv
        (processData storeEnv (forkManager.orphanBlockPool.length + 1 + extra))
        forkManager blockB1 = some sm1) ∧
      (∀ b ∈ sm1.orphanBlockPool, b ∈ forkManager.orphanBlockPool) ∧
      (∀ nb, (OrphanBlockPool.TryGetNextBlock forkManager.orphanBlockPool
          blockB1.Hash).1 = some nb →
        (∀ b ∈ sm1.orphanBlockPool, b.Hash ≠ nb.Hash) ∧ .block nb ∈ sm1.delivered) ∧
      ((∀ b1 ∈ forkManager.orphanBlockPool, ∀ b2 ∈ forkManager.orphanBlockPool,
          b1.ParentHash = blockB1.Hash → b2.ParentHash = blockB1.Hash →
            b1.Hash = b2.Hash) →
        ∀ b ∈ sm1.orphanBlockPool, b.ParentHash ≠ blockB1.Hash) ∧
      (∃ rest, sm1.delivered = forkManager.delivered ++ .block blockB1 :: rest ∧
        (∀ x, .block x ∈ rest →
          x ∈ forkManager.orphanBlockPool ∧ ∀ y ∈ sm1.orphanBlockPool, y.Hash ≠ x.Hash) ∧
        (∀ b ∈ forkManager.orphanBlockPool, b ∈ sm1.orphanBlockPool ∨
          ∃ x ∈ forkManager.orphanBlockPool, x.Hash = b.Hash ∧ .block x ∈ rest)) ∧
      ((∀ x ∈ forkManager.orphanBlockPool, x.Hash ≠ blockB1.Hash) →
        (∀ x ∈ forkManager.orphanBlockPool, ∀ y ∈ forkManager.orphanBlockPool,
          x.Hash = y.Hash → x = y) →
        ∀ nb, (OrphanBlockPool.TryGetNextBlock forkManager.orphanBlockPool
            blockB1.Hash).1 = some nb →
          ∀ b ∈ forkManager.orphanBlockPool, b.ParentHash = blockB1.Hash → b ≠ nb →
            b ∈ sm1.orphanBlockPool ∧
            (Entity.block b ∉ forkManager.delivered → Entity.block b ∉ sm1.delivered)) :=
  ⟨storeEnv_commit, storeEnv_keep, by decide,
    cascade_resolves_one_child storeEnv storeEnv_commit storeEnv_keep
      forkManager blockB1 (by decide)⟩

end Netsync
/-! ## Properties of the transaction filter -/

namespace Snapshot

open Netsync

/-- One round of the loop appends the transaction exactly when the specification keeps it. -/
theorem excludeStep_eq (lib : TxLib) (excl : String → Option Bool) (results : List Bytes)
    (tx : Bytes) :
    excludeStep lib excl results tx
      = results ++ (if keptTx lib excl tx then [tx] else []) := by
  unfold excludeStep keptTx
  cases lib.TxFromBytes tx with
  | none => simp
  | some t =>
    cases t with
    | otherTx k => cases excl (lib.Keccak256Hex tx) <;> simp
    | _ => simp

/-- The loop appends the kept transactions, in order. -/
theorem foldl_excludeStep (lib : TxLib) (excl : String → Option Bool) (txs : List Bytes) :
    ∀ results, txs.foldl (excludeStep lib excl) results
      = results ++ txs.filter (keptTx lib excl) := by
  induction txs with
  | nil => intro results; simp
  | cons tx rest ih =>
    intro results
    rw [List.foldl_cons, ih, excludeStep_eq, List.filter_cons]
    split <;> simp

/-- C10: `ExcludeTxs` returns the transactions of `txs` that the specification keeps (they
decode, are no coinbase, deposit-stake or withdraw-stake transaction, and their hash is not
a key of the exclusion map, whatever the key maps to), in their order in `txs`: the result
is a sublist of `txs`, an element is in it exactly when it is in `txs` and kept, and the
chain argument does not change it. -/
theorem ExcludeTxs_is_filter {Chain Chain2 : Type} (lib : TxLib) (txs : List Bytes)
    (excl : String → Option Bool) (chain : Chain) (chain2 : Chain2) :
    ExcludeTxs lib txs excl chain = txs.filter (keptTx lib excl) ∧
    (ExcludeTxs lib txs excl chain).Sublist txs ∧
    (∀ tx, tx ∈ ExcludeTxs lib txs excl chain ↔
      tx ∈ txs ∧ ∃ t, lib.TxFromBytes tx = some t ∧ t ≠ .coinbase ∧ t ≠ .depositStake ∧
        t ≠ .withdrawStake ∧ excl (lib.Keccak256Hex tx) = none) ∧
    ExcludeTxs lib txs excl chain2 = ExcludeTxs lib txs excl chain := by
  have heq : ∀ {C : Type} (c : C), ExcludeTxs lib txs excl c = txs.filter (keptTx lib excl) := by
    intro C c
    simp [ExcludeTxs, foldl_excludeStep]
  refine ⟨heq chain, ?_, ?_, ?_⟩
  · rw [heq chain]; exact List.filter_sublist txs
  · intro tx
    rw [heq chain, List.mem_filter]
    apply and_congr_right
    intro _
    unfold keptTx
    cases lib.TxFromBytes tx with
    | none => simp
    | some t => simp [Option.isNone_iff_eq_none, and_assoc]
  · rw [heq chain, heq chain2]

end Snapshot
